import Mathlib

/-!
# A statement-level model of `ThreadPool` (src/threading/thread_pool.h)

The pool is embedded as a transition system.  A state records the data members of the
class (`tasks_`, `number_of_tasks`, `stop_`, the two mutexes, the two condition variables,
`threads_`), the control point of every thread that touches the pool, and a few history
variables (`pushed`, `popped`, `completed`, ...) that only record what happened.

Every step is one statement of the source, executed by one thread.  `std::mutex`,
`std::condition_variable` and `std::thread::join` follow the C++ standard library:

* locking a mutex that is held blocks (the step is not enabled);
* `cv.wait(lock, pred)` is `while (!pred()) wait(lock)`; `wait` releases the mutex and
  blocks atomically, a woken thread reacquires the mutex and tests `pred` again,
  spurious wake-ups are possible;
* `notify_one` wakes one blocked thread (any one), `notify_all` wakes all of them;
* `join` on a handle that is not joinable (or on the calling thread itself) throws
  `std::system_error`; an exception that leaves a thread function or a destructor ends
  the process through `std::terminate`;
* signed overflow of the `int` counter is undefined behaviour: such a step has no successor;
* after the body of `~ThreadPool` the members are destroyed (in reverse order of
  declaration: the condition variables, the mutexes, `tasks_`, `threads_`): destroying a
  condition variable on which a thread is blocked or a mutex that is owned is undefined
  behaviour, destroying a joinable `std::thread` calls `std::terminate`; from then on the
  lifetime of the pool has ended (`destroyed`), and joining a thread of the destroyed
  `threads_` or destroying the members once more is undefined behaviour.  Other statements
  on a destroyed pool, which the language leaves undefined as well, stay enabled in the
  model: it then admits more runs than the language defines, and the invariants proved
  below hold for those runs too.
-/

namespace CppUtils

/-- The callable handed to `enqueue` (a `std::function<void()>`).  `id` names the callable,
`throws` says whether its body ends by throwing instead of returning. -/
structure Task where
  id : Nat
  throws : Bool
deriving DecidableEq

/-- Largest value of the C++ type `int`, the type of `number_of_tasks`. -/
def INT_MAX : Int := 2147483647

/-- Smallest value of the C++ type `int`. -/
def INT_MIN : Int := -2147483648

/-- Control points inside `ThreadPool::enqueue` (lines 91-113); each names the statement
that is executed next. -/
inductive EnqPc where
  | lockCount    -- line 95: lock_guard(task_count_mutex_)
  | increment    -- line 96: ++number_of_tasks
  | unlockCount  -- line 97: end of scope, the lock_guard releases
  | lockQueue    -- line 108: unique_lock(queue_mutex_)
  | emplace      -- line 109: tasks_.emplace(task_with_done)
  | unlockQueue  -- line 110: end of scope, the unique_lock releases
  | notifyOne    -- line 112: cv_.notify_one()
deriving DecidableEq

/-- Control points inside `ThreadPool::taskDone` (lines 119-125). -/
inductive TdPc where
  | lock       -- line 121: lock_guard(task_count_mutex_)
  | decrement  -- line 122: --number_of_tasks
  | notifyOne  -- line 124: task_cv_.notify_one()
  | unlock     -- line 125: end of scope, the lock_guard releases
deriving DecidableEq

/-- Control points inside `ThreadPool::waitUntilFinished` (lines 131-135). -/
inductive WaitPc where
  | lock     -- line 133: unique_lock(task_count_mutex_)
  | check    -- line 134: the wait predicate `number_of_tasks <= 0` is evaluated
  | blocked  -- line 134: inside task_cv_.wait, mutex released
  | unlock   -- line 135: wait has returned, the unique_lock releases
deriving DecidableEq

/-- Control points inside `ThreadPool::~ThreadPool` (lines 68-84). -/
inductive DtorPc where
  | lock       -- line 72: unique_lock(queue_mutex_)
  | setStop    -- line 73: stop_ = true
  | unlock     -- line 74: end of scope
  | notifyAll  -- line 77: cv_.notify_all()
  | join (i : Nat)  -- line 82: threads_[i].join(), the loop of line 81 at index i
  | members    -- line 84: end of the body, the members of the pool are destroyed
deriving DecidableEq

/-- Where a thread stands with respect to the public member functions of the pool. -/
inductive Call where
  | idle
  | enqueue (task : Task) (pc : EnqPc)
  | taskDone (pc : TdPc)
  | waitUntilFinished (pc : WaitPc)
  | destructor (pc : DtorPc)
deriving DecidableEq

/-- Control point of a thread.  `client` is a caller-owned thread; the other constructors
are the states of the worker lambda of lines 28-60. -/
inductive Pc where
  | client (c : Call)
  | acquire                      -- line 38: unique_lock(queue_mutex_)
  | waitPred                     -- line 43: the predicate of cv_.wait is evaluated
  | waiting                      -- line 43: inside cv_.wait, mutex released
  | woken                        -- line 49: cv_.wait has returned
  | release (t : Task)           -- line 56: task moved out of the queue, end of locked scope
  | body (t : Task) (c : Call)   -- lines 58/102: captured_task() is running
  | finish (t : Task) (pc : TdPc) -- line 103: this->taskDone() called by the wrapper
  | exited                       -- line 50: return
deriving DecidableEq

/-- A public member function a thread may call. -/
inductive Request where
  | enqueue (task : Task)
  | taskDone
  | waitUntilFinished
  | destroy
deriving DecidableEq

/-- First control point of a call. -/
def Request.entry : Request → Call
  | .enqueue t => .enqueue t .lockCount
  | .taskDone => .taskDone .lock
  | .waitUntilFinished => .waitUntilFinished .lock
  | .destroy => .destructor .lock

/-- What the scheduler or the environment does next. -/
inductive Event where
  | advance (tid : Nat) (pick : Nat)  -- thread `tid` executes its next statement
  | call (tid : Nat) (r : Request)    -- thread `tid` (a caller, or a running body) calls the pool
  | spurious (tid : Nat)              -- a condition-variable wait of `tid` wakes up spuriously
deriving DecidableEq

/-- State of the pool and of the threads using it. -/
structure ThreadPool where
  /-- Size of `threads_`: workers are the threads `0 .. num_threads - 1`. -/
  num_threads : Nat
  /-- Control point of every thread: first the workers, then the caller-owned threads. -/
  threads : List Pc
  /-- Indices of `threads_` whose `std::thread` handle has been joined (not joinable). -/
  joined : List Nat
  tasks_ : List Task
  number_of_tasks : Int
  /-- Owner of `queue_mutex_`. -/
  queue_mutex_ : Option Nat
  /-- Owner of `task_count_mutex_`. -/
  task_count_mutex_ : Option Nat
  /-- Threads blocked in `cv_.wait`. -/
  cv_ : List Nat
  /-- Threads blocked in `task_cv_.wait`. -/
  task_cv_ : List Nat
  stop_ : Bool
  /-- The process has ended through `std::terminate`. -/
  aborted : Bool
  /-- A run of `~ThreadPool` has completed: the members of the pool are destroyed. -/
  destroyed : Bool
  /-- History: tasks in the order `tasks_.emplace` pushed them. -/
  pushed : List Task
  /-- History: tasks in the order workers removed them from `tasks_`. -/
  popped : List Task
  /-- History: tasks in the order their bodies returned. -/
  completed : List Task
  /-- History: value of `pushed` when `stop_` first became true. -/
  pushed_at_stop : List Task
  /-- History: value of `tasks_` when `stop_` first became true. -/
  at_stop : List Task
deriving DecidableEq

/-- `std::condition_variable::notify_one`: one blocked thread (if any) leaves the wait set. -/
def notify_one (blocked : List Nat) (pick : Nat) : List Nat :=
  blocked.eraseIdx (pick % blocked.length)

/-- `std::condition_variable::notify_all`: every blocked thread leaves the wait set. -/
def notify_all (_blocked : List Nat) : List Nat := []

/-- The predicate of `cv_.wait` (line 44): `!tasks_.empty() || stop_`. -/
def workPred (s : ThreadPool) : Bool := !s.tasks_.isEmpty || s.stop_

/-- The predicate of `task_cv_.wait` (line 134): `number_of_tasks <= 0`. -/
def waitPred (s : ThreadPool) : Bool := decide (s.number_of_tasks ≤ 0)

/-- One statement of `enqueue(task)` run by thread `tid`; the second component is the next
control point, `none` when the call returns. -/
def enqueueStep (s : ThreadPool) (tid pick : Nat) (task : Task) :
    EnqPc → Option (ThreadPool × Option EnqPc)
  | .lockCount =>
      if s.task_count_mutex_ = none then
        some ({ s with task_count_mutex_ := some tid }, some .increment)
      else none
  | .increment =>
      if s.number_of_tasks = INT_MAX then none
      else some ({ s with number_of_tasks := s.number_of_tasks + 1 }, some .unlockCount)
  | .unlockCount => some ({ s with task_count_mutex_ := none }, some .lockQueue)
  | .lockQueue =>
      if s.queue_mutex_ = none then
        some ({ s with queue_mutex_ := some tid }, some .emplace)
      else none
  | .emplace =>
      some ({ s with tasks_ := s.tasks_ ++ [task], pushed := s.pushed ++ [task] },
        some .unlockQueue)
  | .unlockQueue => some ({ s with queue_mutex_ := none }, some .notifyOne)
  | .notifyOne => some ({ s with cv_ := notify_one s.cv_ pick }, none)

/-- One statement of `taskDone()` run by thread `tid`. -/
def taskDoneStep (s : ThreadPool) (tid pick : Nat) :
    TdPc → Option (ThreadPool × Option TdPc)
  | .lock =>
      if s.task_count_mutex_ = none then
        some ({ s with task_count_mutex_ := some tid }, some .decrement)
      else none
  | .decrement =>
      if s.number_of_tasks = INT_MIN then none
      else some ({ s with number_of_tasks := s.number_of_tasks - 1 }, some .notifyOne)
  | .notifyOne => some ({ s with task_cv_ := notify_one s.task_cv_ pick }, some .unlock)
  | .unlock => some ({ s with task_count_mutex_ := none }, none)

/-- One statement of `waitUntilFinished()` run by thread `tid`. -/
def waitUntilFinishedStep (s : ThreadPool) (tid : Nat) :
    WaitPc → Option (ThreadPool × Option WaitPc)
  | .lock =>
      if s.task_count_mutex_ = none then
        some ({ s with task_count_mutex_ := some tid }, some .check)
      else none
  | .check =>
      if waitPred s then some (s, some .unlock)
      else some ({ s with task_count_mutex_ := none, task_cv_ := s.task_cv_ ++ [tid] },
        some .blocked)
  | .blocked =>
      if tid ∈ s.task_cv_ then none
      else if s.task_count_mutex_ = none then
        some ({ s with task_count_mutex_ := some tid }, some .check)
      else none
  | .unlock => some ({ s with task_count_mutex_ := none }, none)

/-- Has every `std::thread` of `threads_` been joined (none is joinable). -/
def allJoined (s : ThreadPool) : Bool :=
  (List.range s.num_threads).all fun i => decide (i ∈ s.joined)

/-- One statement of `~ThreadPool()` run by thread `tid`; the last one, `members`, is the
destruction of the members that follows the body of the destructor. -/
def destructorStep (s : ThreadPool) (tid : Nat) :
    DtorPc → Option (ThreadPool × Option DtorPc)
  | .lock =>
      if s.queue_mutex_ = none then
        some ({ s with queue_mutex_ := some tid }, some .setStop)
      else none
  | .setStop =>
      some ({ s with
                stop_ := true
                pushed_at_stop := if s.stop_ then s.pushed_at_stop else s.pushed
                at_stop := if s.stop_ then s.at_stop else s.tasks_ },
        some .unlock)
  | .unlock => some ({ s with queue_mutex_ := none }, some .notifyAll)
  | .notifyAll => some ({ s with cv_ := notify_all s.cv_ }, some (.join 0))
  | .join i =>
      if i < s.num_threads then
        if s.destroyed then none
        else if i ∈ s.joined ∨ i = tid then
          some ({ s with aborted := true }, some (.join i))
        else if s.threads[i]? = some Pc.exited then
          some ({ s with joined := s.joined ++ [i] }, some (.join (i + 1)))
        else none
      else some (s, some .members)
  | .members =>
      if s.destroyed ∨ s.task_cv_ ≠ [] ∨ s.cv_ ≠ [] ∨ s.task_count_mutex_ ≠ none
          ∨ s.queue_mutex_ ≠ none then none
      else if allJoined s then some ({ s with destroyed := true }, none)
      else some ({ s with aborted := true }, some .members)

/-- One statement of the member function a thread is inside. -/
def callStep (s : ThreadPool) (tid pick : Nat) : Call → Option (ThreadPool × Call)
  | .idle => none
  | .enqueue t pc =>
      (enqueueStep s tid pick t pc).map fun r =>
        (r.1, match r.2 with
              | some pc1 => Call.enqueue t pc1
              | none => Call.idle)
  | .taskDone pc =>
      (taskDoneStep s tid pick pc).map fun r =>
        (r.1, match r.2 with
              | some pc1 => Call.taskDone pc1
              | none => Call.idle)
  | .waitUntilFinished pc =>
      (waitUntilFinishedStep s tid pc).map fun r =>
        (r.1, match r.2 with
              | some pc1 => Call.waitUntilFinished pc1
              | none => Call.idle)
  | .destructor pc =>
      (destructorStep s tid pc).map fun r =>
        (r.1, match r.2 with
              | some pc1 => Call.destructor pc1
              | none => Call.idle)

/-- The next statement of thread `tid` standing at control point `pc`: the new shared state
and the new control point.  `none`: the thread is blocked, has ended, or the statement has
undefined behaviour. -/
def advancePc (s : ThreadPool) (tid pick : Nat) : Pc → Option (ThreadPool × Pc)
  | .client c => (callStep s tid pick c).map fun r => (r.1, Pc.client r.2)
  | .acquire =>
      if s.queue_mutex_ = none then
        some ({ s with queue_mutex_ := some tid }, Pc.waitPred)
      else none
  | .waitPred =>
      if workPred s then some (s, Pc.woken)
      else some ({ s with queue_mutex_ := none, cv_ := s.cv_ ++ [tid] }, Pc.waiting)
  | .waiting =>
      if tid ∈ s.cv_ then none
      else if s.queue_mutex_ = none then
        some ({ s with queue_mutex_ := some tid }, Pc.waitPred)
      else none
  | .woken =>
      if s.stop_ && s.tasks_.isEmpty then
        some ({ s with queue_mutex_ := none }, Pc.exited)
      else
        match s.tasks_ with
        | [] => none
        | t :: rest =>
            some ({ s with tasks_ := rest, popped := s.popped ++ [t] }, Pc.release t)
  | .release t => some ({ s with queue_mutex_ := none }, Pc.body t Call.idle)
  | .body t Call.idle =>
      if t.throws then some ({ s with aborted := true }, Pc.body t Call.idle)
      else some ({ s with completed := s.completed ++ [t] }, Pc.finish t TdPc.lock)
  | .body t c => (callStep s tid pick c).map fun r => (r.1, Pc.body t r.2)
  | .finish t pc =>
      (taskDoneStep s tid pick pc).map fun r =>
        (r.1, match r.2 with
              | some pc1 => Pc.finish t pc1
              | none => Pc.acquire)
  | .exited => none

/-- Thread `tid` moves to control point `pc`. -/
def setPc (s : ThreadPool) (tid : Nat) (pc : Pc) : ThreadPool :=
  { s with threads := s.threads.set tid pc }

/-- The step function of the pool: `none` when the event is not enabled. -/
def step (s : ThreadPool) : Event → Option ThreadPool
  | .advance tid pick =>
      if s.aborted then none
      else
        match s.threads[tid]? with
        | none => none
        | some pc => (advancePc s tid pick pc).map fun r => setPc r.1 tid r.2
  | .call tid r =>
      if s.aborted then none
      else
        match s.threads[tid]? with
        | some (Pc.client Call.idle) => some (setPc s tid (Pc.client r.entry))
        | some (Pc.body t Call.idle) => some (setPc s tid (Pc.body t r.entry))
        | _ => none
  | .spurious tid =>
      if s.aborted then none
      else some { s with cv_ := s.cv_.erase tid, task_cv_ := s.task_cv_.erase tid }

/-- Run a schedule from a state. -/
def run (s : ThreadPool) : List Event → Option ThreadPool
  | [] => some s
  | e :: es => (step s e).bind fun s1 => run s1 es

/-- The constructor `ThreadPool(num_threads)` (lines 22-62) together with `callers`
caller-owned threads that are not inside any call. -/
def construct (num_threads callers : Nat) : ThreadPool :=
  { num_threads := num_threads
    threads := List.replicate num_threads Pc.acquire
                ++ List.replicate callers (Pc.client Call.idle)
    joined := []
    tasks_ := []
    number_of_tasks := 0
    queue_mutex_ := none
    task_count_mutex_ := none
    cv_ := []
    task_cv_ := []
    stop_ := false
    aborted := false
    destroyed := false
    pushed := []
    popped := []
    completed := []
    pushed_at_stop := []
    at_stop := [] }

/-- Sum of a weight over all threads. -/
def sumBy (f : Pc → Nat) : List Pc → Nat
  | [] => 0
  | p :: ps => f p + sumBy f ps

/-- Tasks a per-thread function yields, thread by thread. -/
def gather (f : Pc → List Task) : List Pc → List Task
  | [] => []
  | p :: ps => f p ++ gather f ps

/-- The task a worker has removed from `tasks_` and whose body has not returned yet
(control points of lines 56-58 and 102). -/
def Pc.exec : Pc → List Task
  | .release t => [t]
  | .body t _ => [t]
  | _ => []

/-- Tasks that are being executed: removed from the queue, body not yet returned. -/
def executing (s : ThreadPool) : List Task := gather Pc.exec s.threads

/-- Is the thread running a wrapper `task_with_done` that has not yet executed the
`--number_of_tasks` of its `taskDone` call: 1 if so. -/
def Pc.inflight : Pc → Nat
  | .release _ => 1
  | .body _ _ => 1
  | .finish _ .lock => 1
  | .finish _ .decrement => 1
  | _ => 0

/-- Is the call an `enqueue` that has executed `++number_of_tasks` and not yet
`tasks_.emplace`: 1 if so. -/
def Call.pending : Call → Nat
  | .enqueue _ .unlockCount => 1
  | .enqueue _ .lockQueue => 1
  | .enqueue _ .emplace => 1
  | _ => 0

/-- The pending `enqueue` (if any) of a thread. -/
def Pc.pending : Pc → Nat
  | .client c => c.pending
  | .body _ c => c.pending
  | _ => 0

/-- Number of wrappers being executed whose decrement is still to come. -/
def inflightCount (s : ThreadPool) : Nat := sumBy Pc.inflight s.threads

/-- Number of `enqueue` calls between their increment and their push. -/
def pendingCount (s : ThreadPool) : Nat := sumBy Pc.pending s.threads

/-- The thread is inside a `taskDone` call that was not made by the wrapper of `enqueue`. -/
def Pc.externalTaskDone : Pc → Bool
  | .client (.taskDone _) => true
  | .body _ (.taskDone _) => true
  | _ => false

/-- The event is a call of the public `taskDone` from outside the wrapper. -/
def Event.isTaskDoneCall : Event → Bool
  | .call _ .taskDone => true
  | _ => false

/-- Does a call hold `queue_mutex_` at this control point. -/
def Call.holdsQueue : Call → Bool
  | .enqueue _ .emplace => true
  | .enqueue _ .unlockQueue => true
  | .destructor .setStop => true
  | .destructor .unlock => true
  | _ => false

/-- Does a call hold `task_count_mutex_` at this control point. -/
def Call.holdsCount : Call → Bool
  | .enqueue _ .increment => true
  | .enqueue _ .unlockCount => true
  | .taskDone .decrement => true
  | .taskDone .notifyOne => true
  | .taskDone .unlock => true
  | .waitUntilFinished .check => true
  | .waitUntilFinished .unlock => true
  | _ => false

/-- Does the program text have `queue_mutex_` locked at this control point. -/
def Pc.holdsQueue : Pc → Bool
  | .client c => c.holdsQueue
  | .waitPred => true
  | .woken => true
  | .release _ => true
  | .body _ c => c.holdsQueue
  | _ => false

/-- Does the program text have `task_count_mutex_` locked at this control point. -/
def Pc.holdsCount : Pc → Bool
  | .client c => c.holdsCount
  | .body _ c => c.holdsCount
  | .finish _ .decrement => true
  | .finish _ .notifyOne => true
  | .finish _ .unlock => true
  | _ => false

/-- Caller-owned thread (as opposed to a worker of the pool). -/
def Pc.isClient : Pc → Bool
  | .client _ => true
  | _ => false

/-- The thread is inside a call of `~ThreadPool`. -/
def Pc.insideDestructor : Pc → Bool
  | .client (.destructor _) => true
  | .body _ (.destructor _) => true
  | _ => false

/-- Is the thread executing a wrapper `task_with_done`, from the moment the worker has
taken it out of the queue until its `taskDone` call has returned: 1 if so. -/
def Pc.wrapper : Pc → Nat
  | .release _ => 1
  | .body _ _ => 1
  | .finish _ _ => 1
  | _ => 0

/-- Number of wrappers being executed. -/
def wrapperCount (s : ThreadPool) : Nat := sumBy Pc.wrapper s.threads

/-- Is the call an `enqueue` that has not executed its `tasks_.emplace` yet: 1 if so. -/
def Call.unpushed : Call → Nat
  | .enqueue _ .lockCount => 1
  | .enqueue _ .increment => 1
  | .enqueue _ .unlockCount => 1
  | .enqueue _ .lockQueue => 1
  | .enqueue _ .emplace => 1
  | _ => 0

/-- The `enqueue` call (if any) of a thread that has not pushed yet. -/
def Pc.unpushed : Pc → Nat
  | .client c => c.unpushed
  | .body _ c => c.unpushed
  | _ => 0

/-- Number of `enqueue` calls that have started and not pushed their task yet. -/
def unpushedCount (s : ThreadPool) : Nat := sumBy Pc.unpushed s.threads

/-- The event is a call of `enqueue`. -/
def Event.isEnqueueCall : Event → Bool
  | .call _ (.enqueue _) => true
  | _ => false

/-- Number of `enqueue` calls made in a schedule. -/
def enqueueCalls (es : List Event) : Nat := es.countP Event.isEnqueueCall

/-! ### Invariants -/

/-- Every removed task is either still being executed or has completed. -/
def ExecInv (s : ThreadPool) : Prop :=
  ∀ a : Task, s.popped.count a =
    sumBy (fun p => p.exec.count a) s.threads + s.completed.count a

/-- The queue is first-in first-out: what was pushed is what was removed followed by
what is still queued. -/
def FifoInv (s : ThreadPool) : Prop := s.pushed = s.popped ++ s.tasks_

/-- Threads `0 .. num_threads - 1` run the worker loop, all later threads are callers. -/
def RoleInv (s : ThreadPool) : Prop :=
  ∀ j pc, s.threads[j]? = some pc → (pc.isClient = true ↔ s.num_threads ≤ j)

/-- With a single worker, the removed tasks are the completed ones, in order, followed by
the one being executed. -/
def OrderInv (s : ThreadPool) : Prop := s.popped = s.completed ++ executing s

/-- When `taskDone` is only called by the wrapper that `enqueue` builds, the counter is
the number of queued tasks plus the wrappers that have not decremented yet plus the
`enqueue` calls that have incremented and not pushed yet. -/
def CountInv (s : ThreadPool) : Prop :=
  (∀ (j : Nat) (p : Pc), s.threads[j]? = some p → p.externalTaskDone = false) ∧
    s.number_of_tasks =
      (s.tasks_.length : Int) + (inflightCount s : Int) + (pendingCount s : Int)

/-- The owner recorded for each mutex is exactly the thread whose control point lies
inside the corresponding locked scope of the source. -/
def LockInv (s : ThreadPool) : Prop :=
  ∀ j : Nat,
    (∀ pc : Pc, s.threads[j]? = some pc →
      ((pc.holdsQueue = true ↔ s.queue_mutex_ = some j) ∧
        (pc.holdsCount = true ↔ s.task_count_mutex_ = some j))) ∧
    (s.threads[j]? = none → s.queue_mutex_ ≠ some j ∧ s.task_count_mutex_ ≠ some j)

/-- What is known about a pool on its way through shutdown: workers only leave after
`stop_` was set and with an empty queue, so everything pushed before `stop_` was set has
been removed from the queue once some worker has left; joined workers have left. -/
def ShutdownInv (s : ThreadPool) : Prop :=
  FifoInv s ∧
  ((∃ j : Nat, s.threads[j]? = some Pc.exited) → s.stop_ = true) ∧
  (s.stop_ = true → s.at_stop <:+ s.pushed_at_stop ∧ s.pushed_at_stop <+: s.pushed) ∧
  ((∃ j : Nat, s.threads[j]? = some Pc.exited) → s.pushed_at_stop <+: s.popped) ∧
  (∀ j : Nat, j ∈ s.joined → s.threads[j]? = some Pc.exited)

/-- No worker thread is joined twice, only workers are joined, and the members of the
pool are only destroyed once every worker has been joined. -/
def JoinInv (s : ThreadPool) : Prop :=
  s.joined.Nodup ∧ (∀ i : Nat, i ∈ s.joined → i < s.num_threads) ∧
    (s.destroyed = true → ∀ i : Nat, i < s.num_threads → i ∈ s.joined)

/-! ### Concrete schedules -/

/-- A task whose body returns. -/
def demoTask : Task := { id := 0, throws := false }

/-- A task whose body throws. -/
def throwingTask : Task := { id := 0, throws := true }

/-- Thread 1 enqueues `demoTask`; worker 0 takes it, runs it and finishes `taskDone`. -/
def demoSchedule : List Event :=
  Event.call 1 (Request.enqueue demoTask) :: List.replicate 7 (Event.advance 1 0)
    ++ List.replicate 9 (Event.advance 0 0)

/-- The state `demoSchedule` leads to, from a pool with one worker and one caller. -/
def demoState : ThreadPool :=
  (run (construct 1 1) demoSchedule).getD (construct 1 1)

/-- The tasks `t0 .. t9`. -/
def logTasks : List Task :=
  (List.range 10).map fun i => { id := i, throws := false }

/-- All statements of the calls `enqueue t` for the given tasks, made one after the other
by thread 1. -/
def submitAll : List Task → List Event
  | [] => []
  | t :: ts =>
      Event.call 1 (Request.enqueue t) :: List.replicate 7 (Event.advance 1 0) ++ submitAll ts

/-- Thread 1 submits `t0 .. t9`, then the only worker runs until it is idle again. -/
def logSchedule : List Event :=
  submitAll logTasks ++ List.replicate 90 (Event.advance 0 0)

/-- The state `logSchedule` leads to, from a pool with one worker and one caller. -/
def logState : ThreadPool :=
  (run (construct 1 1) logSchedule).getD (construct 1 1)

/-- Thread 1 enqueues a task and runs the destructor up to `notify_all` while the task is
still queued; worker 0 then takes the task, runs it, finds `stop_` set with an empty queue
and leaves its loop; thread 1 joins it, the members are destroyed and the destructor
returns. -/
def shutdownSchedule : List Event :=
  Event.call 1 (Request.enqueue demoTask) :: List.replicate 7 (Event.advance 1 0)
    ++ Event.call 1 Request.destroy :: List.replicate 4 (Event.advance 1 0)
    ++ List.replicate 12 (Event.advance 0 0)
    ++ List.replicate 3 (Event.advance 1 0)

/-- The state `shutdownSchedule` leads to, from a pool with one worker and one caller. -/
def shutdownState : ThreadPool :=
  (run (construct 1 1) shutdownSchedule).getD (construct 1 1)

/-- In a pool without workers, thread 0 enqueues a task and then calls the public
`taskDone` twice; thread 1 calls `waitUntilFinished` and reaches the wait predicate. -/
def negativeCountSchedule : List Event :=
  Event.call 0 (Request.enqueue demoTask) :: List.replicate 7 (Event.advance 0 0)
    ++ Event.call 0 Request.taskDone :: List.replicate 4 (Event.advance 0 0)
    ++ Event.call 0 Request.taskDone :: List.replicate 4 (Event.advance 0 0)
    ++ [Event.call 1 Request.waitUntilFinished, Event.advance 1 0]

/-- Thread 1 enqueues a task whose body throws; worker 0 takes it and runs its body to
the throw. -/
def throwSchedule : List Event :=
  Event.call 1 (Request.enqueue throwingTask) :: List.replicate 7 (Event.advance 1 0)
    ++ List.replicate 5 (Event.advance 0 0)

/-- Thread 1 enqueues a task, threads 2 and 3 block in `waitUntilFinished`, worker 0 runs
the task and its `taskDone`; the woken waiter then returns. -/
def twoWaitersSchedule : List Event :=
  Event.call 1 (Request.enqueue demoTask) :: List.replicate 7 (Event.advance 1 0)
    ++ Event.call 2 Request.waitUntilFinished :: List.replicate 2 (Event.advance 2 0)
    ++ Event.call 3 Request.waitUntilFinished :: List.replicate 2 (Event.advance 3 0)
    ++ List.replicate 9 (Event.advance 0 0)
    ++ List.replicate 3 (Event.advance 2 0)

/-- In a pool without workers, thread 0 calls the public `taskDone` once. -/
def strayTaskDoneSchedule : List Event :=
  Event.call 0 Request.taskDone :: List.replicate 4 (Event.advance 0 0)

/-- Thread 1 runs the destructor of a pool with one worker to its end, the destruction of
the members included (worker 0 leaves its loop in between). -/
def destroySchedule : List Event :=
  Event.call 1 Request.destroy :: List.replicate 4 (Event.advance 1 0)
    ++ List.replicate 3 (Event.advance 0 0)
    ++ List.replicate 3 (Event.advance 1 0)

/-- Thread 0 runs the destructor of a pool without workers to its end, the destruction of
the members included. -/
def destroyEmptySchedule : List Event :=
  Event.call 0 Request.destroy :: List.replicate 6 (Event.advance 0 0)

/-- The state `destroySchedule` leads to, from a pool with one worker and one caller. -/
def destroyedState : ThreadPool :=
  (run (construct 1 1) destroySchedule).getD (construct 1 1)

/-- The statements of a second run of the destructor by thread 1, up to its first `join`. -/
def destroyAgain : List Event :=
  Event.call 1 Request.destroy :: List.replicate 5 (Event.advance 1 0)

/-- The statements of a second run of the destructor by thread 0 in a pool without
workers, up to the destruction of the members. -/
def destroyEmptyAgain : List Event :=
  Event.call 0 Request.destroy :: List.replicate 6 (Event.advance 0 0)

/-- Worker 0 is running the body of `demoTask`. -/
def runningState : ThreadPool :=
  (run (construct 1 1)
    (Event.call 1 (Request.enqueue demoTask) :: List.replicate 7 (Event.advance 1 0)
      ++ List.replicate 4 (Event.advance 0 0))).getD (construct 1 1)

/-- Thread 1 is blocked in `waitUntilFinished` and worker 0 is about to execute the
decrement of the `taskDone` call of the only task. -/
def lastTaskDoneState : ThreadPool :=
  (run (construct 1 2)
    (Event.call 1 (Request.enqueue demoTask) :: List.replicate 7 (Event.advance 1 0)
      ++ Event.call 2 Request.waitUntilFinished :: List.replicate 2 (Event.advance 2 0)
      ++ List.replicate 6 (Event.advance 0 0))).getD (construct 1 2)

/-! ## Proofs -/

theorem sumBy_set (f : Pc → Nat) (new : Pc) :
    ∀ (l : List Pc) (i : Nat) (old : Pc), l[i]? = some old →
      sumBy f (l.set i new) + f old = sumBy f l + f new := by
  intro l
  induction l with
  | nil => intro i old h; simp at h
  | cons p ps ih =>
    intro i old h
    cases i with
    | zero =>
      simp at h
      subst h
      simp [sumBy]; omega
    | succ j =>
      simp at h
      have := ih j old h
      simp [sumBy]; omega

theorem count_gather (f : Pc → List Task) (a : Task) :
    ∀ l : List Pc, (gather f l).count a = sumBy (fun p => (f p).count a) l := by
  intro l
  induction l with
  | nil => simp [gather, sumBy]
  | cons p ps ih => simp [gather, sumBy, List.count_append, ih]

theorem sumBy_eq_zero (f : Pc → Nat) :
    ∀ l : List Pc, (∀ p ∈ l, f p = 0) → sumBy f l = 0 := by
  intro l
  induction l with
  | nil => intro _; rfl
  | cons p ps ih =>
    intro h
    simp [sumBy, h p (by simp), ih (fun q hq => h q (by simp [hq]))]

theorem getElem?_set_self_of_some {l : List Pc} {i : Nat} {old new : Pc} (h : l[i]? = some old) :
    (l.set i new)[i]? = some new := by
  have hi : i < l.length := by
    rcases Nat.lt_or_ge i l.length with h1 | h1
    · exact h1
    · rw [List.getElem?_eq_none h1] at h; cases h
  simp [List.getElem?_set, hi]

theorem getElem?_set_other {l : List Pc} {i j : Nat} (new : Pc) (h : i ≠ j) :
    (l.set i new)[j]? = l[j]? := by
  simp [List.getElem?_set, h]

/-- An invariant of the enabled steps that are allowed by `ok` holds after every run made
of such steps. -/
theorem run_preserves (P : ThreadPool → Prop) (ok : Event → Prop)
    (hstep : ∀ s e s1, P s → ok e → step s e = some s1 → P s1) :
    ∀ (es : List Event) (s s1 : ThreadPool), P s → (∀ e ∈ es, ok e) →
      run s es = some s1 → P s1 := by
  intro es
  induction es with
  | nil =>
    intro s s1 hP _ h
    simp [run] at h
    subst h; exact hP
  | cons e es ih =>
    intro s s1 hP hok h
    simp only [run] at h
    cases hs : step s e with
    | none => simp [hs] at h
    | some s2 =>
      simp [hs] at h
      exact ih s2 s1 (hstep s e s2 hP (hok e (by simp)) hs) (fun e1 he1 => hok e1 (by simp [he1])) h

theorem step_advance {s s1 : ThreadPool} {tid pick : Nat}
    (h : step s (Event.advance tid pick) = some s1) :
    s.aborted = false ∧ ∃ pc r, s.threads[tid]? = some pc ∧
      advancePc s tid pick pc = some r ∧ s1 = setPc r.1 tid r.2 := by
  simp only [step] at h
  split at h
  · cases h
  · rename_i hab
    refine ⟨by simpa using hab, ?_⟩
    split at h
    · cases h
    · rename_i pc hpc
      cases hr : advancePc s tid pick pc with
      | none => simp [hr] at h
      | some r =>
        simp [hr] at h
        exact ⟨pc, r, hpc, hr, h.symm⟩

theorem step_call {s s1 : ThreadPool} {tid : Nat} {r : Request}
    (h : step s (Event.call tid r) = some s1) :
    s.aborted = false ∧ ∃ pc pc1, s.threads[tid]? = some pc ∧ s1 = setPc s tid pc1 ∧
      ((pc = Pc.client Call.idle ∧ pc1 = Pc.client r.entry) ∨
        ∃ t, pc = Pc.body t Call.idle ∧ pc1 = Pc.body t r.entry) := by
  simp only [step] at h
  split at h
  · cases h
  · rename_i hab
    refine ⟨by simpa using hab, ?_⟩
    split at h
    · rename_i hpc
      simp at h
      exact ⟨_, _, hpc, h.symm, Or.inl ⟨rfl, rfl⟩⟩
    · rename_i t hpc
      simp at h
      exact ⟨_, _, hpc, h.symm, Or.inr ⟨t, rfl, rfl⟩⟩
    · cases h

theorem step_spurious {s s1 : ThreadPool} {tid : Nat}
    (h : step s (Event.spurious tid) = some s1) :
    s.aborted = false ∧
      s1 = { s with cv_ := s.cv_.erase tid, task_cv_ := s.task_cv_.erase tid } := by
  simp only [step] at h
  split at h
  · cases h
  · rename_i hab
    simp at h
    exact ⟨by simpa using hab, h.symm⟩

theorem advancePc_frame {s : ThreadPool} {tid pick : Nat} {pc : Pc} {r : ThreadPool × Pc}
    (h : advancePc s tid pick pc = some r) :
    r.1.threads = s.threads ∧ r.1.num_threads = s.num_threads := by
  rcases pc with c | _ | _ | _ | _ | t | ⟨t, c⟩ | ⟨t, q⟩ | _
  all_goals first
    | (rcases c with _ | ⟨t1, q⟩ | q | q | q <;> try cases q)
    | (cases q)
    | skip
  all_goals
    simp only [advancePc, callStep, enqueueStep, taskDoneStep, waitUntilFinishedStep,
      destructorStep] at h
  all_goals (try split at h) <;> (try split at h) <;> (try split at h) <;> (try split at h)
  all_goals first
    | (cases h; done)
    | (simp only [Option.map_some', Option.some.injEq] at h; subst h; simp)

theorem advancePc_fifo {s : ThreadPool} {tid pick : Nat} {pc : Pc} {r : ThreadPool × Pc}
    (h : advancePc s tid pick pc = some r) (hinv : s.pushed = s.popped ++ s.tasks_) :
    r.1.pushed = r.1.popped ++ r.1.tasks_ := by
  rcases pc with c | _ | _ | _ | _ | t | ⟨t, c⟩ | ⟨t, q⟩ | _
  all_goals first
    | (rcases c with _ | ⟨t1, q⟩ | q | q | q <;> try cases q)
    | (cases q)
    | skip
  all_goals
    simp only [advancePc, callStep, enqueueStep, taskDoneStep, waitUntilFinishedStep,
      destructorStep] at h
  all_goals (try split at h) <;> (try split at h) <;> (try split at h) <;> (try split at h)
  all_goals first
    | (cases h; done)
    | (simp only [Option.map_some', Option.some.injEq] at h; subst h; simp_all)

/-! ### No task is lost or run twice -/

theorem advancePc_exec {s : ThreadPool} {tid pick : Nat} {pc : Pc} {r : ThreadPool × Pc}
    (h : advancePc s tid pick pc = some r) (a : Task) :
    r.1.popped.count a + pc.exec.count a + s.completed.count a =
      s.popped.count a + r.2.exec.count a + r.1.completed.count a := by
  rcases pc with c | _ | _ | _ | _ | t | ⟨t, c⟩ | ⟨t, q⟩ | _
  all_goals first
    | (rcases c with _ | ⟨t1, q⟩ | q | q | q <;> try cases q)
    | (cases q)
    | skip
  all_goals
    simp only [advancePc, callStep, enqueueStep, taskDoneStep, waitUntilFinishedStep,
      destructorStep] at h
  all_goals (try split at h) <;> (try split at h) <;> (try split at h) <;> (try split at h)
  all_goals first
    | (cases h; done)
    | (simp only [Option.map_some', Option.some.injEq] at h; subst h
       simp [Pc.exec, List.count_append]
       try omega)

theorem step_execInv (s : ThreadPool) (e : Event) (s1 : ThreadPool)
    (hinv : ExecInv s) (h : step s e = some s1) : ExecInv s1 := by
  intro a
  have ha := hinv a
  cases e with
  | advance tid pick =>
    obtain ⟨_, pc, r, hpc, hr, rfl⟩ := step_advance h
    have hf := advancePc_frame hr
    have hl := advancePc_exec hr a
    have hs := sumBy_set (fun p => p.exec.count a) r.2 s.threads tid pc hpc
    dsimp only at hs
    simp only [setPc, hf.1]
    omega
  | call tid req =>
    obtain ⟨_, pc, pc1, hpc, rfl, hcase⟩ := step_call h
    have hs := sumBy_set (fun p => p.exec.count a) pc1 s.threads tid pc hpc
    dsimp only at hs
    have he : pc1.exec = pc.exec := by
      rcases hcase with ⟨rfl, rfl⟩ | ⟨t, rfl, rfl⟩ <;> rfl
    rw [he] at hs
    simp only [setPc]
    omega
  | spurious tid =>
    obtain ⟨_, rfl⟩ := step_spurious h
    simpa using ha

theorem step_fifoInv (s : ThreadPool) (e : Event) (s1 : ThreadPool)
    (hinv : FifoInv s) (h : step s e = some s1) : FifoInv s1 := by
  cases e with
  | advance tid pick =>
    obtain ⟨_, pc, r, hpc, hr, rfl⟩ := step_advance h
    simpa [FifoInv, setPc] using advancePc_fifo hr hinv
  | call tid req =>
    obtain ⟨_, pc, pc1, hpc, rfl, _⟩ := step_call h
    simpa [FifoInv, setPc] using hinv
  | spurious tid =>
    obtain ⟨_, rfl⟩ := step_spurious h
    simpa [FifoInv] using hinv

theorem sumBy_replicate (f : Pc → Nat) (p : Pc) (n : Nat) :
    sumBy f (List.replicate n p) = n * f p := by
  induction n with
  | zero => simp [sumBy]
  | succ k ih => simp [List.replicate_succ, sumBy, ih]; ring

theorem sumBy_append (f : Pc → Nat) (l1 l2 : List Pc) :
    sumBy f (l1 ++ l2) = sumBy f l1 + sumBy f l2 := by
  induction l1 with
  | nil => simp [sumBy]
  | cons p ps ih => simp [sumBy, ih]; omega

theorem construct_execInv (n m : Nat) : ExecInv (construct n m) := by
  intro a
  simp [construct, sumBy_append, sumBy_replicate, Pc.exec]

theorem construct_fifoInv (n m : Nat) : FifoInv (construct n m) := by
  simp [construct, FifoInv]

theorem reachable_fifoInv {n m : Nat} {es : List Event} {s : ThreadPool}
    (h : run (construct n m) es = some s) : FifoInv s :=
  run_preserves FifoInv (fun _ => True) (fun s e s1 hP _ hs => step_fifoInv s e s1 hP hs)
    es _ s (construct_fifoInv n m) (fun _ _ => trivial) h

theorem reachable_execInv {n m : Nat} {es : List Event} {s : ThreadPool}
    (h : run (construct n m) es = some s) : ExecInv s :=
  run_preserves ExecInv (fun _ => True) (fun s e s1 hP _ hs => step_execInv s e s1 hP hs)
    es _ s (construct_execInv n m) (fun _ _ => trivial) h

theorem perm_of_invs {s : ThreadPool} (h1 : FifoInv s) (h2 : ExecInv s) :
    List.Perm s.pushed (s.tasks_ ++ executing s ++ s.completed) := by
  rw [List.perm_iff_count]
  intro a
  have := h2 a
  simp only [FifoInv] at h1
  simp only [h1, List.count_append, executing, count_gather]
  omega

/-! ### Workers and callers; the single-worker order -/

theorem advancePc_isClient {s : ThreadPool} {tid pick : Nat} {pc : Pc} {r : ThreadPool × Pc}
    (h : advancePc s tid pick pc = some r) : r.2.isClient = pc.isClient := by
  rcases pc with c | _ | _ | _ | _ | t | ⟨t, c⟩ | ⟨t, q⟩ | _
  all_goals first
    | (rcases c with _ | ⟨t1, q⟩ | q | q | q <;> try cases q)
    | (cases q)
    | skip
  all_goals
    simp only [advancePc, callStep, enqueueStep, taskDoneStep, waitUntilFinishedStep,
      destructorStep] at h
  all_goals (try split at h) <;> (try split at h) <;> (try split at h) <;> (try split at h)
  all_goals first
    | (cases h; done)
    | (simp only [Option.map_some', Option.some.injEq] at h; subst h; simp [Pc.isClient])

theorem advancePc_client {s : ThreadPool} {tid pick : Nat} {pc : Pc} {r : ThreadPool × Pc}
    (h : advancePc s tid pick pc = some r) (hc : pc.isClient = true) :
    r.1.popped = s.popped ∧ r.1.completed = s.completed ∧ r.2.exec = pc.exec := by
  rcases pc with c | _ | _ | _ | _ | t | ⟨t, c⟩ | ⟨t, q⟩ | _
  all_goals first
    | (rcases c with _ | ⟨t1, q⟩ | q | q | q <;> try cases q)
    | (cases q)
    | skip
  all_goals first
    | (simp [Pc.isClient] at hc; done)
    | simp only [advancePc, callStep, enqueueStep, taskDoneStep, waitUntilFinishedStep,
      destructorStep] at h
  all_goals (try split at h) <;> (try split at h) <;> (try split at h) <;> (try split at h)
  all_goals first
    | (cases h; done)
    | (simp only [Option.map_some', Option.some.injEq] at h; subst h; simp [Pc.exec])

theorem advancePc_order {s : ThreadPool} {tid pick : Nat} {pc : Pc} {r : ThreadPool × Pc}
    (h : advancePc s tid pick pc = some r) (hinv : s.popped = s.completed ++ pc.exec) :
    r.1.popped = r.1.completed ++ r.2.exec := by
  rcases pc with c | _ | _ | _ | _ | t | ⟨t, c⟩ | ⟨t, q⟩ | _
  all_goals first
    | (rcases c with _ | ⟨t1, q⟩ | q | q | q <;> try cases q)
    | (cases q)
    | skip
  all_goals
    simp only [advancePc, callStep, enqueueStep, taskDoneStep, waitUntilFinishedStep,
      destructorStep] at h
  all_goals (try split at h) <;> (try split at h) <;> (try split at h) <;> (try split at h)
  all_goals first
    | (cases h; done)
    | (simp only [Option.map_some', Option.some.injEq] at h; subst h
       simp [Pc.exec] at hinv ⊢
       try simp [hinv])

theorem getElem?_set_cases {l : List Pc} {i j : Nat} {old new p : Pc}
    (hi : l[i]? = some old) (hj : (l.set i new)[j]? = some p) :
    (j = i ∧ p = new) ∨ (j ≠ i ∧ l[j]? = some p) := by
  by_cases hji : j = i
  · subst hji
    rw [getElem?_set_self_of_some hi] at hj
    exact Or.inl ⟨rfl, by simpa using hj.symm⟩
  · rw [getElem?_set_other new (fun h => hji h.symm)] at hj
    exact Or.inr ⟨hji, hj⟩

theorem step_roleInv (s : ThreadPool) (e : Event) (s1 : ThreadPool)
    (hinv : RoleInv s) (h : step s e = some s1) : RoleInv s1 := by
  cases e with
  | advance tid pick =>
    obtain ⟨_, pc, r, hpc, hr, rfl⟩ := step_advance h
    have hf := advancePc_frame hr
    have hc := advancePc_isClient hr
    intro j p hj
    simp only [setPc, hf.1, hf.2] at hj ⊢
    rcases getElem?_set_cases hpc hj with ⟨rfl, rfl⟩ | ⟨_, hj1⟩
    · rw [hc]; exact hinv _ _ hpc
    · exact hinv _ _ hj1
  | call tid req =>
    obtain ⟨_, pc, pc1, hpc, rfl, hcase⟩ := step_call h
    have hc : pc1.isClient = pc.isClient := by
      rcases hcase with ⟨rfl, rfl⟩ | ⟨t, rfl, rfl⟩ <;> rfl
    intro j p hj
    simp only [setPc] at hj ⊢
    rcases getElem?_set_cases hpc hj with ⟨rfl, rfl⟩ | ⟨_, hj1⟩
    · rw [hc]; exact hinv _ _ hpc
    · exact hinv _ _ hj1
  | spurious tid =>
    obtain ⟨_, rfl⟩ := step_spurious h
    exact hinv

theorem construct_roleInv (n m : Nat) : RoleInv (construct n m) := by
  intro j pc hj
  simp only [construct] at hj ⊢
  by_cases hjn : j < n
  · rw [List.getElem?_append_left (by simpa using hjn)] at hj
    rw [List.getElem?_replicate] at hj
    simp [hjn] at hj
    subst hj
    simp [Pc.isClient]; omega
  · rw [List.getElem?_append_right (by simpa using hjn)] at hj
    rw [List.getElem?_replicate] at hj
    split at hj
    · simp at hj
      subst hj
      simp [Pc.isClient]; omega
    · cases hj

theorem reachable_roleInv {n m : Nat} {es : List Event} {s : ThreadPool}
    (h : run (construct n m) es = some s) : RoleInv s :=
  run_preserves RoleInv (fun _ => True) (fun s e s1 hP _ hs => step_roleInv s e s1 hP hs)
    es _ s (construct_roleInv n m) (fun _ _ => trivial) h

theorem step_num_threads (s : ThreadPool) (e : Event) (s1 : ThreadPool)
    (h : step s e = some s1) : s1.num_threads = s.num_threads := by
  cases e with
  | advance tid pick =>
    obtain ⟨_, pc, r, hpc, hr, rfl⟩ := step_advance h
    simpa [setPc] using (advancePc_frame hr).2
  | call tid req =>
    obtain ⟨_, pc, pc1, hpc, rfl, _⟩ := step_call h
    rfl
  | spurious tid =>
    obtain ⟨_, rfl⟩ := step_spurious h
    rfl

theorem reachable_num_threads {n m : Nat} {es : List Event} {s : ThreadPool}
    (h : run (construct n m) es = some s) : s.num_threads = n :=
  run_preserves (fun s => s.num_threads = n) (fun _ => True)
    (fun s e s1 hP _ hs => (step_num_threads s e s1 hs).trans hP)
    es _ s rfl (fun _ _ => trivial) h

theorem gather_set_same (f : Pc → List Task) (new : Pc) :
    ∀ (l : List Pc) (i : Nat) (old : Pc), l[i]? = some old → f new = f old →
      gather f (l.set i new) = gather f l := by
  intro l
  induction l with
  | nil => intro i old h; simp at h
  | cons p ps ih =>
    intro i old h hf
    cases i with
    | zero =>
      simp at h
      subst h
      simp [gather, hf]
    | succ j =>
      simp at h
      simp [gather, ih j old h hf]

theorem gather_eq_nil (f : Pc → List Task) :
    ∀ l : List Pc, (∀ p ∈ l, f p = []) → gather f l = [] := by
  intro l
  induction l with
  | nil => intro _; rfl
  | cons p ps ih =>
    intro h
    simp [gather, h p (by simp), ih (fun q hq => h q (by simp [hq]))]

theorem exec_of_isClient {p : Pc} (h : p.isClient = true) : p.exec = [] := by
  cases p <;> simp [Pc.isClient] at h <;> rfl

/-- With at most one worker, the only task being executed is the one of thread 0. -/
theorem executing_single {s : ThreadPool} (hrole : RoleInv s) (h1 : s.num_threads ≤ 1)
    {pc : Pc} (hpc : s.threads[0]? = some pc) : executing s = pc.exec := by
  cases hl : s.threads with
  | nil => rw [hl] at hpc; cases hpc
  | cons p ps =>
    rw [hl] at hpc
    simp at hpc
    subst hpc
    have htail : gather Pc.exec ps = [] := by
      apply gather_eq_nil
      intro q hq
      obtain ⟨k, hk⟩ := List.getElem?_of_mem hq
      have hq1 : s.threads[k + 1]? = some q := by rw [hl]; simpa using hk
      exact exec_of_isClient ((hrole _ _ hq1).2 (by omega))
    simp [executing, hl, gather, htail]

theorem step_orderInv (s : ThreadPool) (e : Event) (s1 : ThreadPool)
    (hrole : RoleInv s) (h1 : s.num_threads ≤ 1)
    (hinv : OrderInv s) (h : step s e = some s1) : OrderInv s1 := by
  have hrole1 := step_roleInv s e s1 hrole h
  have hn1 := step_num_threads s e s1 h
  cases e with
  | advance tid pick =>
    obtain ⟨_, pc, r, hpc, hr, rfl⟩ := step_advance h
    have hf := advancePc_frame hr
    by_cases hc : pc.isClient = true
    · obtain ⟨e1, e2, e3⟩ := advancePc_client hr hc
      simp only [OrderInv, executing, setPc, hf.1, e1, e2] at hinv ⊢
      rw [gather_set_same Pc.exec r.2 s.threads tid pc hpc e3]
      exact hinv
    · have htid : tid = 0 := by
        have := (hrole _ _ hpc).not.1 hc
        omega
      subst htid
      have hnew : (setPc r.1 0 r.2).threads[0]? = some r.2 := by
        simp only [setPc, hf.1]
        exact getElem?_set_self_of_some hpc
      rw [OrderInv, executing_single hrole1 (by omega) hnew]
      rw [OrderInv, executing_single hrole h1 hpc] at hinv
      simpa [setPc] using advancePc_order hr hinv
  | call tid req =>
    obtain ⟨_, pc, pc1, hpc, rfl, hcase⟩ := step_call h
    have he : pc1.exec = pc.exec := by
      rcases hcase with ⟨rfl, rfl⟩ | ⟨t, rfl, rfl⟩ <;> rfl
    simp only [OrderInv, executing, setPc] at hinv ⊢
    rw [gather_set_same Pc.exec pc1 s.threads tid pc hpc he]
    exact hinv
  | spurious tid =>
    obtain ⟨_, rfl⟩ := step_spurious h
    exact hinv

theorem construct_orderInv (n m : Nat) : OrderInv (construct n m) := by
  have : ∀ k (p : Pc), p.exec = [] → gather Pc.exec (List.replicate k p) = [] := by
    intro k p hp
    apply gather_eq_nil
    intro q hq
    rw [(List.mem_replicate.1 hq).2]; exact hp
  have happ : ∀ l1 l2 : List Pc,
      gather Pc.exec (l1 ++ l2) = gather Pc.exec l1 ++ gather Pc.exec l2 := by
    intro l1 l2
    induction l1 with
    | nil => rfl
    | cons p ps ih => simp [gather, ih]
  simp [OrderInv, executing, construct, happ, this _ _ (rfl : Pc.acquire.exec = []),
    this _ _ (rfl : (Pc.client Call.idle).exec = [])]

theorem reachable_orderInv {n m : Nat} {es : List Event} {s : ThreadPool} (hn : n ≤ 1)
    (h : run (construct n m) es = some s) : OrderInv s := by
  have key := run_preserves
    (fun s => RoleInv s ∧ s.num_threads ≤ 1 ∧ OrderInv s) (fun _ => True)
    (fun s e s1 hP _ hs =>
      ⟨step_roleInv s e s1 hP.1 hs, by rw [step_num_threads s e s1 hs]; exact hP.2.1,
        step_orderInv s e s1 hP.1 hP.2.1 hP.2.2 hs⟩)
    es _ s ⟨construct_roleInv n m, hn, construct_orderInv n m⟩ (fun _ _ => trivial) h
  exact key.2.2

/-! ### The pending-task counter -/

theorem advancePc_count {s : ThreadPool} {tid pick : Nat} {pc : Pc} {r : ThreadPool × Pc}
    (h : advancePc s tid pick pc = some r) (hx : pc.externalTaskDone = false) :
    r.2.externalTaskDone = false ∧
      r.1.number_of_tasks + (pc.inflight : Int) + (pc.pending : Int) + (s.tasks_.length : Int) =
        s.number_of_tasks + (r.2.inflight : Int) + (r.2.pending : Int)
          + (r.1.tasks_.length : Int) := by
  rcases pc with c | _ | _ | _ | _ | t | ⟨t, c⟩ | ⟨t, q⟩ | _
  all_goals first
    | (rcases c with _ | ⟨t1, q⟩ | q | q | q <;> try cases q)
    | (cases q)
    | skip
  all_goals first
    | (simp [Pc.externalTaskDone] at hx; done)
    | simp only [advancePc, callStep, enqueueStep, taskDoneStep, waitUntilFinishedStep,
      destructorStep] at h
  all_goals (try split at h) <;> (try split at h) <;> (try split at h) <;> (try split at h)
  all_goals first
    | (cases h; done)
    | (simp only [Option.map_some', Option.some.injEq] at h; subst h
       simp [Pc.externalTaskDone, Pc.inflight, Pc.pending, Call.pending]
       first
         | done
         | omega
         | (simp_all; omega))

theorem step_countInv (s : ThreadPool) (e : Event) (s1 : ThreadPool)
    (hinv : CountInv s) (hok : e.isTaskDoneCall = false) (h : step s e = some s1) :
    CountInv s1 := by
  obtain ⟨hx, hcnt⟩ := hinv
  cases e with
  | advance tid pick =>
    obtain ⟨_, pc, r, hpc, hr, rfl⟩ := step_advance h
    have hf := advancePc_frame hr
    obtain ⟨hx1, hl⟩ := advancePc_count hr (hx _ _ hpc)
    have hs1 := sumBy_set Pc.inflight r.2 s.threads tid pc hpc
    have hs2 := sumBy_set Pc.pending r.2 s.threads tid pc hpc
    constructor
    · intro j p hj
      simp only [setPc, hf.1] at hj
      rcases getElem?_set_cases hpc hj with ⟨rfl, rfl⟩ | ⟨_, hj1⟩
      · exact hx1
      · exact hx _ _ hj1
    · simp only [setPc, hf.1, inflightCount, pendingCount] at hcnt ⊢
      omega
  | call tid req =>
    obtain ⟨_, pc, pc1, hpc, rfl, hcase⟩ := step_call h
    have hs1 := sumBy_set Pc.inflight pc1 s.threads tid pc hpc
    have hs2 := sumBy_set Pc.pending pc1 s.threads tid pc hpc
    have hprops : pc1.externalTaskDone = false ∧ pc1.inflight = pc.inflight ∧
        pc1.pending = pc.pending := by
      rcases hcase with ⟨rfl, rfl⟩ | ⟨t, rfl, rfl⟩ <;> cases req <;>
        first
          | (simp [Event.isTaskDoneCall] at hok; done)
          | exact ⟨rfl, rfl, rfl⟩
    constructor
    · intro j p hj
      simp only [setPc] at hj
      rcases getElem?_set_cases hpc hj with ⟨rfl, rfl⟩ | ⟨_, hj1⟩
      · exact hprops.1
      · exact hx _ _ hj1
    · simp only [setPc, inflightCount, pendingCount] at hcnt ⊢
      rw [hprops.2.1] at hs1
      rw [hprops.2.2] at hs2
      omega
  | spurious tid =>
    obtain ⟨_, rfl⟩ := step_spurious h
    exact ⟨hx, hcnt⟩

theorem construct_countInv (n m : Nat) : CountInv (construct n m) := by
  constructor
  · intro j p hj
    have hmem := List.getElem?_mem hj
    simp only [construct, List.mem_append, List.mem_replicate] at hmem
    rcases hmem with ⟨_, rfl⟩ | ⟨_, rfl⟩ <;> rfl
  · simp [construct, inflightCount, pendingCount, sumBy_append, sumBy_replicate,
      Pc.inflight, Pc.pending, Call.pending]

theorem reachable_countInv {n m : Nat} {es : List Event} {s : ThreadPool}
    (hes : ∀ e ∈ es, e.isTaskDoneCall = false)
    (h : run (construct n m) es = some s) : CountInv s :=
  run_preserves CountInv (fun e => e.isTaskDoneCall = false)
    (fun s e s1 hP hok hs => step_countInv s e s1 hP hok hs)
    es _ s (construct_countInv n m) hes h

/-! ### The two lock domains -/

theorem advancePc_lockQueue {s : ThreadPool} {tid pick : Nat} {pc : Pc} {r : ThreadPool × Pc}
    (h : advancePc s tid pick pc = some r)
    (hown : pc.holdsQueue = true ↔ s.queue_mutex_ = some tid) :
    (r.2.holdsQueue = true ↔ r.1.queue_mutex_ = some tid) ∧
      ∀ j, j ≠ tid → (r.1.queue_mutex_ = some j ↔ s.queue_mutex_ = some j) := by
  rcases pc with c | _ | _ | _ | _ | t | ⟨t, c⟩ | ⟨t, q⟩ | _
  all_goals first
    | (rcases c with _ | ⟨t1, q⟩ | q | q | q <;> try cases q)
    | (cases q)
    | skip
  all_goals
    simp only [advancePc, callStep, enqueueStep, taskDoneStep, waitUntilFinishedStep,
      destructorStep] at h
  all_goals (try split at h) <;> (try split at h) <;> (try split at h) <;> (try split at h)
  all_goals first
    | (cases h; done)
    | (simp only [Option.map_some', Option.some.injEq] at h; subst h
       simp [Pc.holdsQueue, Call.holdsQueue] at hown ⊢
       first
         | done
         | (intro j hj; simp_all; done)
         | (intro j hj; simp_all; omega)
         | simp_all)

theorem advancePc_lockCount {s : ThreadPool} {tid pick : Nat} {pc : Pc} {r : ThreadPool × Pc}
    (h : advancePc s tid pick pc = some r)
    (hown : pc.holdsCount = true ↔ s.task_count_mutex_ = some tid) :
    (r.2.holdsCount = true ↔ r.1.task_count_mutex_ = some tid) ∧
      ∀ j, j ≠ tid → (r.1.task_count_mutex_ = some j ↔ s.task_count_mutex_ = some j) := by
  rcases pc with c | _ | _ | _ | _ | t | ⟨t, c⟩ | ⟨t, q⟩ | _
  all_goals first
    | (rcases c with _ | ⟨t1, q⟩ | q | q | q <;> try cases q)
    | (cases q)
    | skip
  all_goals
    simp only [advancePc, callStep, enqueueStep, taskDoneStep, waitUntilFinishedStep,
      destructorStep] at h
  all_goals (try split at h) <;> (try split at h) <;> (try split at h) <;> (try split at h)
  all_goals first
    | (cases h; done)
    | (simp only [Option.map_some', Option.some.injEq] at h; subst h
       simp [Pc.holdsCount, Call.holdsCount] at hown ⊢
       first
         | done
         | (intro j hj; simp_all; done)
         | (intro j hj; simp_all; omega)
         | simp_all)

theorem step_lockInv (s : ThreadPool) (e : Event) (s1 : ThreadPool)
    (hinv : LockInv s) (h : step s e = some s1) : LockInv s1 := by
  cases e with
  | advance tid pick =>
    obtain ⟨_, pc, r, hpc, hr, rfl⟩ := step_advance h
    have hf := advancePc_frame hr
    obtain ⟨hq1, hq2⟩ := advancePc_lockQueue hr ((hinv tid).1 pc hpc).1
    obtain ⟨hc1, hc2⟩ := advancePc_lockCount hr ((hinv tid).1 pc hpc).2
    intro j
    simp only [setPc, hf.1]
    by_cases hj : j = tid
    · subst hj
      rw [getElem?_set_self_of_some hpc]
      refine ⟨?_, by simp⟩
      intro p hp
      simp only [Option.some.injEq] at hp
      subst hp
      exact ⟨hq1, hc1⟩
    · rw [getElem?_set_other r.2 (fun h0 => hj h0.symm)]
      simpa only [ne_eq, hq2 j hj, hc2 j hj] using hinv j
  | call tid req =>
    obtain ⟨_, pc, pc1, hpc, rfl, hcase⟩ := step_call h
    have hprops : pc1.holdsQueue = pc.holdsQueue ∧ pc1.holdsCount = pc.holdsCount := by
      rcases hcase with ⟨rfl, rfl⟩ | ⟨t, rfl, rfl⟩ <;> cases req <;> exact ⟨rfl, rfl⟩
    intro j
    simp only [setPc]
    by_cases hj : j = tid
    · subst hj
      rw [getElem?_set_self_of_some hpc]
      refine ⟨?_, by simp⟩
      intro p hp
      simp only [Option.some.injEq] at hp
      subst hp
      rw [hprops.1, hprops.2]
      exact (hinv j).1 pc hpc
    · rw [getElem?_set_other pc1 (fun h0 => hj h0.symm)]
      exact hinv j
  | spurious tid =>
    obtain ⟨_, rfl⟩ := step_spurious h
    exact hinv

theorem construct_lockInv (n m : Nat) : LockInv (construct n m) := by
  intro j
  refine ⟨?_, by simp [construct]⟩
  intro pc hj
  have hmem := List.getElem?_mem hj
  simp only [construct, List.mem_append, List.mem_replicate] at hmem
  rcases hmem with ⟨_, rfl⟩ | ⟨_, rfl⟩ <;>
    simp [construct, Pc.holdsQueue, Pc.holdsCount, Call.holdsQueue, Call.holdsCount]

theorem reachable_lockInv {n m : Nat} {es : List Event} {s : ThreadPool}
    (h : run (construct n m) es = some s) : LockInv s :=
  run_preserves LockInv (fun _ => True) (fun s e s1 hP _ hs => step_lockInv s e s1 hP hs)
    es _ s (construct_lockInv n m) (fun _ _ => trivial) h

theorem holds_not_both (pc : Pc) : ¬ (pc.holdsQueue = true ∧ pc.holdsCount = true) := by
  rcases pc with c | _ | _ | _ | _ | t | ⟨t, c⟩ | ⟨t, q⟩ | _
  all_goals first
    | (rcases c with _ | ⟨t1, q⟩ | q | q | q <;> try cases q)
    | (cases q)
    | skip
  all_goals simp [Pc.holdsQueue, Pc.holdsCount, Call.holdsQueue, Call.holdsCount]

/-! ### Shutdown -/

theorem advancePc_shutdown {s : ThreadPool} {tid pick : Nat} {pc : Pc} {r : ThreadPool × Pc}
    (h : advancePc s tid pick pc = some r) :
    (s.stop_ = true → r.1.stop_ = true ∧ r.1.pushed_at_stop = s.pushed_at_stop ∧
        r.1.at_stop = s.at_stop) ∧
    (s.stop_ = false → r.1.stop_ = true → r.1.at_stop = s.tasks_ ∧
        r.1.pushed_at_stop = s.pushed ∧ r.1.pushed = s.pushed ∧ r.2 ≠ Pc.exited) ∧
    (r.2 = Pc.exited → s.stop_ = true ∧ s.tasks_ = [] ∧ r.1.tasks_ = [] ∧
        r.1.popped = s.popped ∧ r.1.pushed = s.pushed) ∧
    s.popped <+: r.1.popped ∧ s.pushed <+: r.1.pushed ∧
    (∀ j : Nat, j ∈ r.1.joined → j ∈ s.joined ∨ s.threads[j]? = some Pc.exited) ∧
    pc ≠ Pc.exited := by
  rcases pc with c | _ | _ | _ | _ | t | ⟨t, c⟩ | ⟨t, q⟩ | _
  all_goals first
    | (rcases c with _ | ⟨t1, q⟩ | q | q | q <;> try cases q)
    | (cases q)
    | skip
  all_goals
    simp only [advancePc, callStep, enqueueStep, taskDoneStep, waitUntilFinishedStep,
      destructorStep] at h
  all_goals (try split at h) <;> (try split at h) <;> (try split at h) <;> (try split at h)
  all_goals first
    | (cases h; done)
    | (simp only [Option.map_some', Option.some.injEq] at h; subst h
       simp
       first
         | done
         | (simp_all; done)
         | (refine ⟨?_, ?_⟩ <;> (try intro j hj) <;> (try rcases hj with hj | hj) <;> simp_all))

theorem step_shutdownInv (s : ThreadPool) (e : Event) (s1 : ThreadPool)
    (hinv : ShutdownInv s) (h : step s e = some s1) : ShutdownInv s1 := by
  obtain ⟨hfifo, hexit, hstop, hdrain, hjoin⟩ := hinv
  have hfifo1 := step_fifoInv s e s1 hfifo h
  refine ⟨hfifo1, ?_⟩
  cases e with
  | advance tid pick =>
    obtain ⟨_, pc, r, hpc, hr, rfl⟩ := step_advance h
    have hf := advancePc_frame hr
    obtain ⟨ha, hb, hc, hd1, hd2, he, hne⟩ := advancePc_shutdown hr
    have hold : ∀ j : Nat, (setPc r.1 tid r.2).threads[j]? = some Pc.exited →
        (j = tid ∧ r.2 = Pc.exited) ∨ s.threads[j]? = some Pc.exited := by
      intro j hj
      simp only [setPc, hf.1] at hj
      rcases getElem?_set_cases hpc hj with ⟨rfl, h2⟩ | ⟨_, hj1⟩
      · exact Or.inl ⟨rfl, h2.symm⟩
      · exact Or.inr hj1
    have hstop0 : (∃ j : Nat, (setPc r.1 tid r.2).threads[j]? = some Pc.exited) →
        s.stop_ = true := by
      rintro ⟨j, hj⟩
      rcases hold j hj with ⟨_, h2⟩ | h2
      · exact (hc h2).1
      · exact hexit ⟨j, h2⟩
    refine ⟨?_, ?_, ?_, ?_⟩
    · intro hex
      exact (ha (hstop0 hex)).1
    · intro hs1
      simp only [setPc] at hs1 ⊢
      cases hs : s.stop_ with
      | true =>
        obtain ⟨_, e1, e2⟩ := ha hs
        rw [e1, e2]
        exact ⟨(hstop hs).1, (hstop hs).2.trans hd2⟩
      | false =>
        obtain ⟨e1, e2, e3, _⟩ := hb hs hs1
        rw [e1, e2, e3]
        refine ⟨?_, List.prefix_refl _⟩
        rw [hfifo]
        exact List.suffix_append _ _
    · intro hex
      have hs := hstop0 hex
      obtain ⟨_, e1, _⟩ := ha hs
      obtain ⟨j, hj⟩ := hex
      simp only [setPc] at hj ⊢
      rw [e1]
      rcases hold j hj with ⟨_, h2⟩ | h2
      · obtain ⟨_, ht, _, e3, _⟩ := hc h2
        rw [e3]
        have hpp : s.pushed = s.popped := by rw [hfifo, ht]; simp
        rw [← hpp]
        exact (hstop hs).2
      · exact (hdrain ⟨j, h2⟩).trans hd1
    · intro j hj
      simp only [setPc, hf.1] at hj ⊢
      have hjex : s.threads[j]? = some Pc.exited := by
        rcases he j hj with h2 | h2
        · exact hjoin j h2
        · exact h2
      have hjt : tid ≠ j := by
        rintro rfl
        rw [hpc] at hjex
        exact hne (by simpa using hjex)
      rw [getElem?_set_other r.2 hjt]
      exact hjex
  | call tid req =>
    obtain ⟨_, pc, pc1, hpc, rfl, hcase⟩ := step_call h
    have hne : pc ≠ Pc.exited ∧ pc1 ≠ Pc.exited := by
      rcases hcase with ⟨rfl, rfl⟩ | ⟨t, rfl, rfl⟩ <;> exact ⟨by simp, by simp⟩
    have hold : ∀ j : Nat, (setPc s tid pc1).threads[j]? = some Pc.exited →
        s.threads[j]? = some Pc.exited := by
      intro j hj
      simp only [setPc] at hj
      rcases getElem?_set_cases hpc hj with ⟨rfl, h2⟩ | ⟨_, hj1⟩
      · exact absurd h2.symm hne.2
      · exact hj1
    refine ⟨?_, ?_, ?_, ?_⟩
    · rintro ⟨j, hj⟩
      exact hexit ⟨j, hold j hj⟩
    · exact hstop
    · rintro ⟨j, hj⟩
      exact hdrain ⟨j, hold j hj⟩
    · intro j hj
      have hjex := hjoin j hj
      have hjt : tid ≠ j := by
        rintro rfl
        rw [hpc] at hjex
        exact hne.1 (by simpa using hjex)
      simp only [setPc]
      rw [getElem?_set_other pc1 hjt]
      exact hjex
  | spurious tid =>
    obtain ⟨_, rfl⟩ := step_spurious h
    exact ⟨hexit, hstop, hdrain, hjoin⟩

theorem construct_shutdownInv (n m : Nat) : ShutdownInv (construct n m) := by
  refine ⟨construct_fifoInv n m, ?_, ?_, ?_, ?_⟩
  · rintro ⟨j, hj⟩
    have hmem := List.getElem?_mem hj
    simp [construct] at hmem
  · intro h; simp [construct] at h
  · rintro ⟨j, hj⟩
    have hmem := List.getElem?_mem hj
    simp [construct] at hmem
  · intro j hj; simp [construct] at hj

theorem reachable_shutdownInv {n m : Nat} {es : List Event} {s : ThreadPool}
    (h : run (construct n m) es = some s) : ShutdownInv s :=
  run_preserves ShutdownInv (fun _ => True)
    (fun s e s1 hP _ hs => step_shutdownInv s e s1 hP hs)
    es _ s (construct_shutdownInv n m) (fun _ _ => trivial) h

/-! ### Counting the calls of `enqueue` -/

theorem advancePc_unpushed {s : ThreadPool} {tid pick : Nat} {pc : Pc} {r : ThreadPool × Pc}
    (h : advancePc s tid pick pc = some r) :
    r.1.pushed.length + r.2.unpushed = s.pushed.length + pc.unpushed := by
  rcases pc with c | _ | _ | _ | _ | t | ⟨t, c⟩ | ⟨t, q⟩ | _
  all_goals first
    | (rcases c with _ | ⟨t1, q⟩ | q | q | q <;> try cases q)
    | (cases q)
    | skip
  all_goals
    simp only [advancePc, callStep, enqueueStep, taskDoneStep, waitUntilFinishedStep,
      destructorStep] at h
  all_goals (try split at h) <;> (try split at h) <;> (try split at h) <;> (try split at h)
  all_goals first
    | (cases h; done)
    | (simp only [Option.map_some', Option.some.injEq] at h; subst h
       simp [Pc.unpushed, Call.unpushed])

theorem step_unpushed (s : ThreadPool) (e : Event) (s1 : ThreadPool)
    (h : step s e = some s1) :
    s1.pushed.length + unpushedCount s1 =
      s.pushed.length + unpushedCount s + (if e.isEnqueueCall = true then 1 else 0) := by
  cases e with
  | advance tid pick =>
    obtain ⟨_, pc, r, hpc, hr, rfl⟩ := step_advance h
    have hf := advancePc_frame hr
    have hl := advancePc_unpushed hr
    have hs := sumBy_set Pc.unpushed r.2 s.threads tid pc hpc
    simp only [setPc, hf.1, unpushedCount, Event.isEnqueueCall]
    simp
    omega
  | call tid req =>
    obtain ⟨_, pc, pc1, hpc, rfl, hcase⟩ := step_call h
    have hs := sumBy_set Pc.unpushed pc1 s.threads tid pc hpc
    have hu : pc1.unpushed = pc.unpushed + (if (Event.call tid req).isEnqueueCall = true
        then 1 else 0) := by
      rcases hcase with ⟨rfl, rfl⟩ | ⟨t, rfl, rfl⟩ <;> cases req <;> rfl
    simp only [setPc, unpushedCount]
    omega
  | spurious tid =>
    obtain ⟨_, rfl⟩ := step_spurious h
    simp [unpushedCount, Event.isEnqueueCall]

theorem run_unpushed :
    ∀ (es : List Event) (s s1 : ThreadPool), run s es = some s1 →
      s1.pushed.length + unpushedCount s1 =
        s.pushed.length + unpushedCount s + enqueueCalls es := by
  intro es
  induction es with
  | nil =>
    intro s s1 h
    simp [run] at h
    subst h
    simp [enqueueCalls]
  | cons e es ih =>
    intro s s1 h
    simp only [run] at h
    cases hs : step s e with
    | none => simp [hs] at h
    | some s2 =>
      simp [hs] at h
      have h1 := step_unpushed s e s2 hs
      have h2 := ih s2 s1 h
      simp only [enqueueCalls, List.countP_cons] at h2 ⊢
      omega

theorem construct_unpushed (n m : Nat) : unpushedCount (construct n m) = 0 := by
  simp [construct, unpushedCount, sumBy_append, sumBy_replicate, Pc.unpushed, Call.unpushed]

/-! ### Statements about reachable states -/

theorem sumBy_congr (f g : Pc → Nat) :
    ∀ l : List Pc, (∀ p ∈ l, f p = g p) → sumBy f l = sumBy g l := by
  intro l
  induction l with
  | nil => intro _; rfl
  | cons p ps ih =>
    intro h
    simp [sumBy, h p (by simp), ih (fun q hq => h q (by simp [hq]))]

theorem wrapper_eq_inflight {s : ThreadPool} (hl : LockInv s)
    (hfree : s.task_count_mutex_ = none) : wrapperCount s = inflightCount s := by
  apply sumBy_congr
  intro p hp
  obtain ⟨j, hj⟩ := List.getElem?_of_mem hp
  have h1 := ((hl j).1 p hj).2
  rw [hfree] at h1
  rcases p with c | _ | _ | _ | _ | t | ⟨t, c⟩ | ⟨t, q⟩ | _
  all_goals first
    | rfl
    | (cases q <;> first | rfl | simp [Pc.holdsCount] at h1)

/-- C1. From a freshly constructed pool, along every schedule of enqueue statements,
worker statements and task-body completions: the tasks pushed into the queue are, as a
multiset, exactly the tasks still in `tasks_` plus the tasks being executed plus the tasks
whose body has completed; no task is removed from the queue more often than it was pushed,
and when the pushed tasks are pairwise distinct every task sits in exactly one of the three
places (so no two workers hold the same task and none is completed twice); hence, when `N`
tasks have been pushed, `tasks_` is empty and no worker is executing, exactly `N` task
bodies have completed; the same holds when `N` is the number of `enqueue` calls made in
the schedule and each of them has pushed its task. -/
theorem no_task_lost_or_run_twice (n m : Nat) (es : List Event) (s : ThreadPool)
    (h : run (construct n m) es = some s) :
    List.Perm s.pushed (s.tasks_ ++ executing s ++ s.completed) ∧
    (∀ a : Task, s.popped.count a ≤ s.pushed.count a) ∧
    (s.pushed.Nodup →
      (s.tasks_ ++ executing s ++ s.completed).Nodup ∧ s.popped.Nodup) ∧
    (∀ N : Nat, s.pushed.length = N → s.tasks_ = [] → executing s = [] →
      s.completed.length = N) ∧
    (∀ N : Nat, enqueueCalls es = N → unpushedCount s = 0 → s.tasks_ = [] →
      executing s = [] → s.completed.length = N) := by
  have hfifo := reachable_fifoInv h
  have hexec := reachable_execInv h
  have hperm := perm_of_invs hfifo hexec
  have hpre : s.popped <+: s.pushed := by
    rw [hfifo]; exact List.prefix_append _ _
  have hdone : s.tasks_ = [] → executing s = [] → s.completed.length = s.pushed.length := by
    intro ht he
    have hlen := hperm.length_eq
    rw [ht, he] at hlen
    simp at hlen
    omega
  refine ⟨hperm, fun a => hpre.sublist.count_le a, ?_, ?_, ?_⟩
  · intro hnd
    exact ⟨(hperm.nodup_iff).1 hnd, hnd.sublist hpre.sublist⟩
  · intro N hN ht he
    rw [hdone ht he, hN]
  · intro N hN hu ht he
    have hcalls := run_unpushed es _ s h
    rw [construct_unpushed] at hcalls
    simp only [construct] at hcalls
    rw [hdone ht he]
    simp at hcalls
    omega

/-- C2. Along every schedule the sequence of tasks removed from `tasks_` is an initial
segment of the sequence of tasks in the order `enqueue` pushed them, the rest being the
queue itself (`enqueue` appends at the tail, a worker removes the head).  For a pool with
exactly one worker thread the bodies are executed in that same order: the completed tasks
followed by the task being executed are the removed tasks, in push order, and once the
queue is empty and nothing is being executed the completion log equals the push log. -/
theorem pop_order_is_fifo (n m : Nat) (es : List Event) (s : ThreadPool)
    (h : run (construct n m) es = some s) :
    s.popped <+: s.pushed ∧ s.pushed = s.popped ++ s.tasks_ ∧
    (n = 1 → s.completed ++ executing s = s.popped ∧ s.completed <+: s.pushed ∧
      (s.tasks_ = [] → executing s = [] → s.completed = s.pushed)) := by
  have hfifo := reachable_fifoInv h
  refine ⟨by rw [hfifo]; exact List.prefix_append _ _, hfifo, ?_⟩
  intro hn
  have hord := reachable_orderInv (by omega) h
  simp only [OrderInv] at hord
  simp only [FifoInv] at hfifo
  refine ⟨hord.symm, ?_, ?_⟩
  · rw [hfifo, hord, List.append_assoc]
    exact List.prefix_append _ _
  · intro ht he
    rw [hfifo, hord, ht, he]
    simp

/-- C4. From a freshly constructed pool, along every schedule in which `taskDone` is only
called by the wrapper that `enqueue` builds: `number_of_tasks` equals the number of tasks
in `tasks_`, plus the number of wrappers a worker has taken and that have not yet executed
their decrement, plus the number of `enqueue` calls that have incremented and not yet
pushed.  Whenever `task_count_mutex_` is free the second summand is the number of
wrappers being executed.  Hence the count is never negative and is 0 exactly when nothing
is queued or in flight. -/
theorem completion_count_invariant (n m : Nat) (es : List Event) (s : ThreadPool)
    (hes : ∀ e ∈ es, e.isTaskDoneCall = false)
    (h : run (construct n m) es = some s) :
    s.number_of_tasks =
      (s.tasks_.length : Int) + (inflightCount s : Int) + (pendingCount s : Int) ∧
    (s.task_count_mutex_ = none → inflightCount s = wrapperCount s) ∧
    0 ≤ s.number_of_tasks ∧
    (s.number_of_tasks = 0 ↔
      s.tasks_ = [] ∧ inflightCount s = 0 ∧ pendingCount s = 0) := by
  have hc := (reachable_countInv hes h).2
  have hl := reachable_lockInv h
  refine ⟨hc, fun hfree => (wrapper_eq_inflight hl hfree).symm, by omega, ?_⟩
  constructor
  · intro h0
    have hlen : s.tasks_.length = 0 := by omega
    exact ⟨List.length_eq_zero.1 hlen, by omega, by omega⟩
  · rintro ⟨h1, h2, h3⟩
    rw [hc, h1, h2, h3]
    simp

/-- C3 (amended). From a freshly constructed pool, along every schedule without a call of
the public `taskDone` from outside the wrapper: whenever the wait predicate of
`waitUntilFinished` holds, so that a waiter standing at the predicate returns,
`number_of_tasks` is exactly 0, `tasks_` is empty, no wrapper awaits its decrement and no
`enqueue` is between its increment and its push. -/
theorem waitUntilFinished_returns_at_zero (n m : Nat) (es : List Event) (s : ThreadPool)
    (hes : ∀ e ∈ es, e.isTaskDoneCall = false)
    (h : run (construct n m) es = some s) (hp : waitPred s = true) :
    s.number_of_tasks = 0 ∧ s.tasks_ = [] ∧ inflightCount s = 0 ∧ pendingCount s = 0 ∧
    (∀ tid : Nat, waitUntilFinishedStep s tid WaitPc.check = some (s, some WaitPc.unlock)) := by
  have hc := (reachable_countInv hes h).2
  have hle : s.number_of_tasks ≤ 0 := by simpa [waitPred] using hp
  have hlen : s.tasks_.length = 0 := by omega
  refine ⟨by omega, List.length_eq_zero.1 hlen, by omega, by omega, ?_⟩
  intro tid
  simp [waitUntilFinishedStep, hp]

/-! ### Running the statements of one thread in a row -/

theorem lt_of_getElem?_eq_some {l : List Pc} {i : Nat} {p : Pc} (h : l[i]? = some p) :
    i < l.length := by
  rcases Nat.lt_or_ge i l.length with h1 | h1
  · exact h1
  · rw [List.getElem?_eq_none h1] at h; cases h

theorem set_set_same (l : List Pc) (i : Nat) (a b : Pc) :
    (l.set i a).set i b = l.set i b := by
  induction l generalizing i with
  | nil => rfl
  | cons p ps ih =>
    cases i with
    | zero => rfl
    | succ j => simp [List.set, ih]

theorem set_getElem?_self {l : List Pc} {i : Nat} {p : Pc} (h : l[i]? = some p) :
    l.set i p = l := by
  induction l generalizing i with
  | nil => rfl
  | cons q qs ih =>
    cases i with
    | zero => simp at h; simp [h]
    | succ j => simp at h; simp [ih h]

theorem step_aborted (s : ThreadPool) (hab : s.aborted = true) (e : Event) :
    step s e = none := by
  cases e <;> simp [step, hab]

theorem worker_takes_head (s : ThreadPool) (tid pick : Nat) (t : Task) (rest : List Task)
    (hab : s.aborted = false) (hpc : s.threads[tid]? = some Pc.waitPred)
    (hq : s.tasks_ = t :: rest) :
    run s [Event.advance tid pick, Event.advance tid pick, Event.advance tid pick]
      = some (setPc { s with tasks_ := rest, popped := s.popped ++ [t], queue_mutex_ := none }
          tid (Pc.body t Call.idle)) := by
  have hlt := lt_of_getElem?_eq_some hpc
  simp [run, step, hab, hpc, advancePc, workPred, hq, setPc, List.getElem?_set, hlt]

theorem step_exit_only_when_drained {s s1 : ThreadPool} {e : Event} {j : Nat}
    (h : step s e = some s1) (hnew : s1.threads[j]? = some Pc.exited)
    (hold : s.threads[j]? ≠ some Pc.exited) :
    s.stop_ = true ∧ s.tasks_ = [] ∧ s1.tasks_ = [] := by
  cases e with
  | advance tid pick =>
    obtain ⟨_, pc, r, hpc, hr, rfl⟩ := step_advance h
    have hf := advancePc_frame hr
    obtain ⟨_, _, hc, _⟩ := advancePc_shutdown hr
    simp only [setPc, hf.1] at hnew ⊢
    rcases getElem?_set_cases hpc hnew with ⟨rfl, h2⟩ | ⟨_, hj1⟩
    · obtain ⟨a1, a2, a3, _⟩ := hc h2.symm
      exact ⟨a1, a2, a3⟩
    · exact absurd hj1 hold
  | call tid req =>
    obtain ⟨_, pc, pc1, hpc, rfl, hcase⟩ := step_call h
    simp only [setPc] at hnew
    rcases getElem?_set_cases hpc hnew with ⟨rfl, h2⟩ | ⟨_, hj1⟩
    · rcases hcase with ⟨_, rfl⟩ | ⟨t, _, rfl⟩ <;> cases h2
    · exact absurd hj1 hold
  | spurious tid =>
    obtain ⟨_, rfl⟩ := step_spurious h
    exact absurd hnew hold

/-- C5. In every state reachable from a freshly constructed pool: a step that takes a
worker out of its loop is only possible when `stop_` is true and `tasks_` is empty; a
worker that evaluates the wait predicate while `tasks_` is non-empty goes on to remove
the head task and to run its body, whatever the value of `stop_`; and for a pool with at
least one worker, once the destructor has joined every worker, `stop_` is set and every
task that was in `tasks_` when `stop_` was set has been removed from the queue and its
body has completed. -/
theorem shutdown_drains_queue (n m : Nat) (es : List Event) (s : ThreadPool)
    (h : run (construct n m) es = some s) :
    (∀ (e : Event) (s1 : ThreadPool) (j : Nat), step s e = some s1 →
      s1.threads[j]? = some Pc.exited → s.threads[j]? ≠ some Pc.exited →
      s.stop_ = true ∧ s.tasks_ = [] ∧ s1.tasks_ = []) ∧
    (∀ (tid pick : Nat) (t : Task) (rest : List Task), s.aborted = false →
      s.threads[tid]? = some Pc.waitPred → s.tasks_ = t :: rest →
      run s [Event.advance tid pick, Event.advance tid pick, Event.advance tid pick]
        = some (setPc
            { s with tasks_ := rest, popped := s.popped ++ [t], queue_mutex_ := none }
            tid (Pc.body t Call.idle))) ∧
    (0 < n → (∀ i : Nat, i < n → i ∈ s.joined) →
      s.stop_ = true ∧ List.Subperm s.at_stop s.completed ∧
      (∀ t ∈ s.at_stop, t ∈ s.popped ∧ t ∈ s.completed)) := by
  refine ⟨fun e s1 j hs hnew hold => step_exit_only_when_drained hs hnew hold,
    fun tid pick t rest hab hpc hq => worker_takes_head s tid pick t rest hab hpc hq, ?_⟩
  intro hn hall
  obtain ⟨_, hexit, hstop, hdrain, hjoin⟩ := reachable_shutdownInv h
  have hrole := reachable_roleInv h
  have hexec := reachable_execInv h
  have hnum := reachable_num_threads h
  have h0 : s.threads[0]? = some Pc.exited := hjoin 0 (hall 0 hn)
  have hs := hexit ⟨0, h0⟩
  have hpre := hdrain ⟨0, h0⟩
  have hsuf := (hstop hs).1
  have hzero : ∀ a : Task, sumBy (fun p => p.exec.count a) s.threads = 0 := by
    intro a
    apply sumBy_eq_zero
    intro p hp
    obtain ⟨j, hj⟩ := List.getElem?_of_mem hp
    by_cases hjn : j < n
    · have := hjoin j (hall j hjn)
      rw [hj] at this
      simp only [Option.some.injEq] at this
      subst this
      rfl
    · have hc : p.isClient = true := (hrole j p hj).2 (by omega)
      rw [exec_of_isClient hc]
      rfl
  have hcount : ∀ a : Task, s.at_stop.count a ≤ s.completed.count a := by
    intro a
    have h1 := hsuf.sublist.count_le a
    have h2 := hpre.sublist.count_le a
    have h3 := hexec a
    rw [hzero a] at h3
    omega
  refine ⟨hs, List.subperm_ext_iff.2 (fun a _ => hcount a), ?_⟩
  intro t ht
  have hc := hcount t
  have hpos : 0 < s.at_stop.count t := List.count_pos_iff.2 ht
  have h3 := hexec t
  rw [hzero t] at h3
  exact ⟨List.count_pos_iff.1 (by omega), List.count_pos_iff.1 (by omega)⟩

/-- C10. In every state reachable from a freshly constructed pool no thread owns
`queue_mutex_` and `task_count_mutex_` at the same time, and a worker whose task body is
running owns neither of them; so a task body that calls `enqueue` on the same pool is
never blocked by a lock of its own worker: when no other thread owns a mutex, the worker
runs the whole `enqueue` (it takes and releases `task_count_mutex_`, then takes and
releases `queue_mutex_`) and is back in the body with the new task queued and counted. -/
theorem lock_domains_never_nested (n m : Nat) (es : List Event) (s : ThreadPool)
    (h : run (construct n m) es = some s) :
    (∀ tid : Nat, ¬ (s.queue_mutex_ = some tid ∧ s.task_count_mutex_ = some tid)) ∧
    (∀ (tid : Nat) (t : Task), s.threads[tid]? = some (Pc.body t Call.idle) →
      s.queue_mutex_ ≠ some tid ∧ s.task_count_mutex_ ≠ some tid) ∧
    (∀ (tid pick : Nat) (t t1 : Task), s.threads[tid]? = some (Pc.body t Call.idle) →
      s.aborted = false → s.number_of_tasks ≠ INT_MAX →
      (∀ j : Nat, j ≠ tid → s.queue_mutex_ ≠ some j ∧ s.task_count_mutex_ ≠ some j) →
      run s (Event.call tid (Request.enqueue t1)
          :: List.replicate 7 (Event.advance tid pick))
        = some { s with
            number_of_tasks := s.number_of_tasks + 1
            tasks_ := s.tasks_ ++ [t1]
            pushed := s.pushed ++ [t1]
            cv_ := notify_one s.cv_ pick }) := by
  have hl := reachable_lockInv h
  have hown : ∀ tid : Nat, (s.queue_mutex_ = some tid → ∃ pc, s.threads[tid]? = some pc ∧
      pc.holdsQueue = true) ∧ (s.task_count_mutex_ = some tid →
        ∃ pc, s.threads[tid]? = some pc ∧ pc.holdsCount = true) := by
    intro tid
    cases hpc : s.threads[tid]? with
    | none =>
      have := (hl tid).2 hpc
      exact ⟨fun h1 => absurd h1 this.1, fun h1 => absurd h1 this.2⟩
    | some pc =>
      have := (hl tid).1 pc hpc
      exact ⟨fun h1 => ⟨pc, rfl, this.1.2 h1⟩, fun h1 => ⟨pc, rfl, this.2.2 h1⟩⟩
  have hbody : ∀ (tid : Nat) (t : Task), s.threads[tid]? = some (Pc.body t Call.idle) →
      s.queue_mutex_ ≠ some tid ∧ s.task_count_mutex_ ≠ some tid := by
    intro tid t hpc
    have := (hl tid).1 _ hpc
    constructor
    · intro h1; have := this.1.2 h1; simp [Pc.holdsQueue, Call.holdsQueue] at this
    · intro h1; have := this.2.2 h1; simp [Pc.holdsCount, Call.holdsCount] at this
  refine ⟨?_, hbody, ?_⟩
  · rintro tid ⟨h1, h2⟩
    obtain ⟨pc, hpc, hq⟩ := (hown tid).1 h1
    obtain ⟨pc1, hpc1, hc⟩ := (hown tid).2 h2
    rw [hpc] at hpc1
    simp only [Option.some.injEq] at hpc1
    subst hpc1
    exact holds_not_both pc ⟨hq, hc⟩
  · intro tid pick t t1 hpc hab hmax hothers
    have hlt := lt_of_getElem?_eq_some hpc
    have hq : s.queue_mutex_ = none := by
      cases hqm : s.queue_mutex_ with
      | none => rfl
      | some j =>
        by_cases hj : j = tid
        · subst hj; exact absurd hqm (hbody j t hpc).1
        · exact absurd hqm (hothers j hj).1
    have hc : s.task_count_mutex_ = none := by
      cases hcm : s.task_count_mutex_ with
      | none => rfl
      | some j =>
        by_cases hj : j = tid
        · subst hj; exact absurd hcm (hbody j t hpc).2
        · exact absurd hcm (hothers j hj).2
    simp [run, step, hab, hpc, advancePc, callStep, enqueueStep, Request.entry, setPc,
      List.getElem?_set, hlt, hq, hc, hmax, List.replicate, set_set_same]
    cases s
    simp_all [set_getElem?_self]

/-! ### What single calls do -/

theorem length_notify_one (l : List Nat) (pick : Nat) (h : 1 ≤ l.length) :
    (notify_one l pick).length = l.length - 1 := by
  unfold notify_one
  rw [List.length_eraseIdx]
  have : pick % l.length < l.length := Nat.mod_lt _ (by omega)
  simp [this]

/-- C6 (amended). When the body of the task a worker runs returns normally, the wrapper
built by `enqueue` calls `taskDone` once: the worker takes `task_count_mutex_`, decrements
`number_of_tasks` by one (in the third statement after the return, and nowhere else),
notifies `task_cv_`, releases the mutex and is back at the top of its loop.  When the body
throws, nothing catches the exception: `taskDone` is not called, `number_of_tasks` keeps
its value, the worker does not return to its loop and the process is terminated, so that
no later step exists. -/
theorem wrapper_decrements_after_normal_return (s : ThreadPool) (tid pick : Nat) (t : Task)
    (hab : s.aborted = false) (hpc : s.threads[tid]? = some (Pc.body t Call.idle)) :
    (t.throws = false → s.task_count_mutex_ = none → s.number_of_tasks ≠ INT_MIN →
      run s (List.replicate 2 (Event.advance tid pick))
        = some (setPc { s with completed := s.completed ++ [t]
                               task_count_mutex_ := some tid }
            tid (Pc.finish t TdPc.decrement)) ∧
      run s (List.replicate 3 (Event.advance tid pick))
        = some (setPc { s with completed := s.completed ++ [t]
                               task_count_mutex_ := some tid
                               number_of_tasks := s.number_of_tasks - 1 }
            tid (Pc.finish t TdPc.notifyOne)) ∧
      run s (List.replicate 5 (Event.advance tid pick))
        = some (setPc { s with completed := s.completed ++ [t]
                               task_count_mutex_ := none
                               number_of_tasks := s.number_of_tasks - 1
                               task_cv_ := notify_one s.task_cv_ pick }
            tid Pc.acquire)) ∧
    (t.throws = true →
      step s (Event.advance tid pick)
        = some (setPc { s with aborted := true } tid (Pc.body t Call.idle)) ∧
      (setPc { s with aborted := true } tid (Pc.body t Call.idle)).number_of_tasks
        = s.number_of_tasks ∧
      ∀ e : Event, step (setPc { s with aborted := true } tid (Pc.body t Call.idle)) e
        = none) := by
  have hlt := lt_of_getElem?_eq_some hpc
  constructor
  · intro ht hfree hmin
    refine ⟨?_, ?_, ?_⟩ <;>
      simp [run, step, hab, hpc, advancePc, taskDoneStep, setPc, List.getElem?_set, hlt,
        ht, hfree, hmin, List.replicate, set_set_same]
  · intro ht
    refine ⟨?_, rfl, ?_⟩
    · simp [step, hab, hpc, advancePc, ht]
    · intro e
      exact step_aborted _ rfl e

/-- C7 (amended). The `taskDone` call of a wrapper that drives `number_of_tasks` from 1 to
0 while `k >= 1` threads are blocked in `waitUntilFinished` wakes exactly one of them
(`task_cv_.notify_one()`): `k - 1` threads stay blocked, so all waiters are released only
when `k = 1`.  A waiter that has been woken takes the mutex, finds the predicate true and
returns; a waiter that has not been woken cannot move. -/
theorem taskDone_wakes_one_waiter (s : ThreadPool) (tid pick k : Nat) (t : Task)
    (hab : s.aborted = false) (hpc : s.threads[tid]? = some (Pc.finish t TdPc.decrement))
    (hcnt : s.number_of_tasks = 1) (hk : s.task_cv_.length = k) (hk1 : 1 ≤ k) :
    ∃ s3 : ThreadPool,
      run s (List.replicate 3 (Event.advance tid pick)) = some s3 ∧
      s3.number_of_tasks = 0 ∧ s3.task_cv_ = notify_one s.task_cv_ pick ∧
      s3.task_cv_.length = k - 1 ∧ (k = 1 → s3.task_cv_ = []) ∧
      (∀ w p : Nat, w ∈ s3.task_cv_ →
        s3.threads[w]? = some (Pc.client (Call.waitUntilFinished WaitPc.blocked)) →
        step s3 (Event.advance w p) = none) ∧
      (∀ w p : Nat, w ∉ s3.task_cv_ →
        s3.threads[w]? = some (Pc.client (Call.waitUntilFinished WaitPc.blocked)) →
        run s3 (List.replicate 3 (Event.advance w p))
          = some (setPc s3 w (Pc.client Call.idle))) := by
  have hlt := lt_of_getElem?_eq_some hpc
  have hmin : s.number_of_tasks ≠ INT_MIN := by rw [hcnt]; decide
  refine ⟨setPc { s with number_of_tasks := s.number_of_tasks - 1
                         task_cv_ := notify_one s.task_cv_ pick
                         task_count_mutex_ := none } tid Pc.acquire, ?_, ?_, rfl, ?_, ?_, ?_, ?_⟩
  · simp [run, step, hab, hpc, advancePc, taskDoneStep, setPc, List.getElem?_set, hlt,
      hmin, List.replicate, set_set_same]
  · simp [setPc, hcnt]
  · simp only [setPc]
    rw [length_notify_one _ _ (by omega), hk]
  · intro h1
    simp only [setPc]
    apply List.eq_nil_of_length_eq_zero
    rw [length_notify_one _ _ (by omega), hk, h1]
  · intro w p hw hpw
    simp only [setPc] at hw hpw
    simp [step, hab, setPc, hpw, advancePc, callStep, waitUntilFinishedStep, hw]
  · intro w p hw hpw
    have hltw := lt_of_getElem?_eq_some hpw
    simp only [setPc, List.length_set] at hw hpw hltw
    simp [run, step, hab, setPc, hpw, advancePc, callStep, waitUntilFinishedStep, hw, waitPred,
      hcnt, List.getElem?_set, hltw, List.replicate, set_set_same]

/-- C8 (amended). `taskDone` has no check of the count: called from a thread outside the
wrapper in a state with `number_of_tasks = 0`, it runs to its end without any error,
leaves `number_of_tasks` at -1, and the wait predicate `number_of_tasks <= 0` of
`waitUntilFinished` still holds afterwards. -/
theorem taskDone_at_zero_leaves_minus_one (s : ThreadPool) (tid pick : Nat)
    (hab : s.aborted = false) (hpc : s.threads[tid]? = some (Pc.client Call.idle))
    (hfree : s.task_count_mutex_ = none) (h0 : s.number_of_tasks = 0) :
    run s (Event.call tid Request.taskDone :: List.replicate 4 (Event.advance tid pick))
      = some { s with number_of_tasks := -1, task_cv_ := notify_one s.task_cv_ pick } ∧
    ({ s with number_of_tasks := -1, task_cv_ := notify_one s.task_cv_ pick }
      : ThreadPool).aborted = false ∧
    waitPred { s with number_of_tasks := -1, task_cv_ := notify_one s.task_cv_ pick }
      = true := by
  have hlt := lt_of_getElem?_eq_some hpc
  have hmin : s.number_of_tasks ≠ INT_MIN := by rw [h0]; decide
  refine ⟨?_, hab, by simp [waitPred]⟩
  simp [run, step, hab, hpc, advancePc, callStep, taskDoneStep, Request.entry, setPc,
    List.getElem?_set, hlt, hfree, hmin, List.replicate, set_set_same]
  cases s
  simp_all [set_getElem?_self]

/-! ### Destruction -/

theorem allJoined_iff (s : ThreadPool) :
    allJoined s = true ↔ ∀ i : Nat, i < s.num_threads → i ∈ s.joined := by
  simp [allJoined, List.all_eq_true]

theorem advancePc_join {s : ThreadPool} {tid pick : Nat} {pc : Pc} {r : ThreadPool × Pc}
    (h : advancePc s tid pick pc = some r) :
    (r.1.joined = s.joined ∨
      ∃ i : Nat, i < s.num_threads ∧ i ∉ s.joined ∧ r.1.joined = s.joined ++ [i]) ∧
    (r.1.destroyed = true → s.destroyed = true ∨ allJoined s = true) := by
  rcases pc with c | _ | _ | _ | _ | t | ⟨t, c⟩ | ⟨t, q⟩ | _
  all_goals first
    | (rcases c with _ | ⟨t1, q⟩ | q | q | q <;> try cases q)
    | (cases q)
    | skip
  all_goals
    simp only [advancePc, callStep, enqueueStep, taskDoneStep, waitUntilFinishedStep,
      destructorStep] at h
  all_goals (try split at h) <;> (try split at h) <;> (try split at h) <;> (try split at h)
  all_goals first
    | (cases h; done)
    | (simp only [Option.map_some', Option.some.injEq] at h; subst h
       simp
       first
         | done
         | simp_all)

theorem step_joinInv (s : ThreadPool) (e : Event) (s1 : ThreadPool)
    (hinv : JoinInv s) (h : step s e = some s1) : JoinInv s1 := by
  obtain ⟨hnd, hlt, hall⟩ := hinv
  cases e with
  | advance tid pick =>
    obtain ⟨_, pc, r, hpc, hr, rfl⟩ := step_advance h
    have hf := advancePc_frame hr
    obtain ⟨hj, hd⟩ := advancePc_join hr
    simp only [setPc, hf.2]
    have hmono : ∀ i : Nat, i ∈ s.joined → i ∈ r.1.joined := by
      intro i hi
      rcases hj with h1 | ⟨k, _, _, h1⟩ <;> rw [h1]
      · exact hi
      · simp [hi]
    refine ⟨?_, ?_, ?_⟩
    · rcases hj with h1 | ⟨k, _, hk, h1⟩ <;> rw [h1]
      · exact hnd
      · exact List.nodup_append.2 ⟨hnd, by simp, by simpa using hk⟩
    · intro i hi
      rcases hj with h1 | ⟨k, hk, _, h1⟩ <;> rw [h1] at hi
      · exact hlt i hi
      · simp at hi
        rcases hi with hi | rfl
        · exact hlt i hi
        · exact hk
    · intro hd1 i hi
      rcases hd hd1 with h2 | h2
      · exact hmono i (hall h2 i hi)
      · exact hmono i ((allJoined_iff s).1 h2 i hi)
  | call tid req =>
    obtain ⟨_, pc, pc1, hpc, rfl, _⟩ := step_call h
    exact ⟨hnd, hlt, hall⟩
  | spurious tid =>
    obtain ⟨_, rfl⟩ := step_spurious h
    exact ⟨hnd, hlt, hall⟩

theorem construct_joinInv (n m : Nat) : JoinInv (construct n m) := by
  refine ⟨by simp [construct], by simp [construct], ?_⟩
  intro h
  simp [construct] at h

theorem reachable_joinInv {n m : Nat} {es : List Event} {s : ThreadPool}
    (h : run (construct n m) es = some s) : JoinInv s :=
  run_preserves JoinInv (fun _ => True) (fun s e s1 hP _ hs => step_joinInv s e s1 hP hs)
    es _ s (construct_joinInv n m) (fun _ _ => trivial) h

theorem advancePc_destroyed {s : ThreadPool} {tid pick : Nat} {pc : Pc}
    {r : ThreadPool × Pc} (h : advancePc s tid pick pc = some r)
    (hd : s.destroyed = true) :
    r.1.destroyed = true ∧ r.1.joined = s.joined ∧
      (pc.insideDestructor = true → r.2.insideDestructor = true) := by
  rcases pc with c | _ | _ | _ | _ | t | ⟨t, c⟩ | ⟨t, q⟩ | _
  all_goals first
    | (rcases c with _ | ⟨t1, q⟩ | q | q | q <;> try cases q)
    | (cases q)
    | skip
  all_goals
    simp only [advancePc, callStep, enqueueStep, taskDoneStep, waitUntilFinishedStep,
      destructorStep] at h
  all_goals (try split at h) <;> (try split at h) <;> (try split at h) <;> (try split at h)
  all_goals first
    | (cases h; done)
    | (simp only [Option.map_some', Option.some.injEq] at h; subst h
       simp [Pc.insideDestructor, hd]
       first
         | done
         | simp_all)

theorem step_destroyed (tid : Nat) (J : List Nat) (s : ThreadPool) (e : Event)
    (s1 : ThreadPool)
    (hinv : s.destroyed = true ∧ s.joined = J ∧
      ∃ pc : Pc, s.threads[tid]? = some pc ∧ pc.insideDestructor = true)
    (h : step s e = some s1) :
    s1.destroyed = true ∧ s1.joined = J ∧
      ∃ pc : Pc, s1.threads[tid]? = some pc ∧ pc.insideDestructor = true := by
  obtain ⟨hd, hj, pc0, hpc0, hin⟩ := hinv
  cases e with
  | advance t1 pick =>
    obtain ⟨_, pc, r, hpc, hr, rfl⟩ := step_advance h
    have hf := advancePc_frame hr
    obtain ⟨h1, h2, h3⟩ := advancePc_destroyed hr hd
    refine ⟨h1, by simpa [setPc, hj] using h2, ?_⟩
    simp only [setPc, hf.1]
    by_cases ht : t1 = tid
    · subst ht
      rw [hpc] at hpc0
      simp only [Option.some.injEq] at hpc0
      subst hpc0
      exact ⟨r.2, getElem?_set_self_of_some hpc, h3 hin⟩
    · rw [getElem?_set_other r.2 ht]
      exact ⟨pc0, hpc0, hin⟩
  | call t1 req =>
    obtain ⟨_, pc, pc1, hpc, rfl, hcase⟩ := step_call h
    refine ⟨hd, hj, ?_⟩
    simp only [setPc]
    by_cases ht : t1 = tid
    · subst ht
      rw [hpc] at hpc0
      simp only [Option.some.injEq] at hpc0
      subst hpc0
      rcases hcase with ⟨rfl, _⟩ | ⟨t, rfl, _⟩ <;> simp [Pc.insideDestructor] at hin
    · rw [getElem?_set_other pc1 ht]
      exact ⟨pc0, hpc0, hin⟩
  | spurious t1 =>
    obtain ⟨_, rfl⟩ := step_spurious h
    exact ⟨hd, hj, pc0, hpc0, hin⟩

/-- C9 (amended). In every state reachable from a freshly constructed pool no worker
thread has been joined twice and only workers are joined.  Once a run of `~ThreadPool`
has completed (its body and the destruction of the members that follows it), every worker
has been joined, exactly once, and the shutdown sequence cannot be run again: joining a
thread of the destroyed `threads_` and destroying the members a second time have no
defined behaviour, and along every schedule a thread that starts a second run never
returns from it and joins nothing. -/
theorem destruction_joins_once_and_is_final (n m : Nat) (es : List Event) (s : ThreadPool)
    (h : run (construct n m) es = some s) :
    s.joined.Nodup ∧ (∀ i : Nat, i ∈ s.joined → i < n) ∧
    (s.destroyed = true →
      (∀ i : Nat, i < n → i ∈ s.joined) ∧
      (∀ tid i : Nat, i < n → destructorStep s tid (DtorPc.join i) = none) ∧
      (∀ tid : Nat, destructorStep s tid DtorPc.members = none) ∧
      (∀ (tid : Nat) (fs : List Event) (s1 : ThreadPool),
        run s (Event.call tid Request.destroy :: fs) = some s1 →
        s1.joined = s.joined ∧
          ∃ pc : Pc, s1.threads[tid]? = some pc ∧ pc.insideDestructor = true)) := by
  obtain ⟨hnd, hlt, hall⟩ := reachable_joinInv h
  have hnum := reachable_num_threads h
  rw [hnum] at hlt hall
  refine ⟨hnd, hlt, ?_⟩
  intro hd
  refine ⟨hall hd, ?_, ?_, ?_⟩
  · intro tid i hi
    simp [destructorStep, hnum, hi, hd]
  · intro tid
    simp [destructorStep, hd]
  · intro tid fs s1 hrun
    simp only [run] at hrun
    cases hc : step s (Event.call tid Request.destroy) with
    | none => simp [hc] at hrun
    | some s0 =>
      simp [hc] at hrun
      obtain ⟨_, pc, pc1, hpc, rfl, hcase⟩ := step_call hc
      have hstart : (setPc s tid pc1).destroyed = true ∧ (setPc s tid pc1).joined = s.joined ∧
          ∃ p : Pc, (setPc s tid pc1).threads[tid]? = some p ∧ p.insideDestructor = true := by
        refine ⟨hd, rfl, pc1, getElem?_set_self_of_some hpc, ?_⟩
        rcases hcase with ⟨_, rfl⟩ | ⟨t, _, rfl⟩ <;> rfl
      have key := run_preserves
        (fun s2 => s2.destroyed = true ∧ s2.joined = s.joined ∧
          ∃ p : Pc, s2.threads[tid]? = some p ∧ p.insideDestructor = true)
        (fun _ => True)
        (fun s2 e s3 hP _ hs => step_destroyed tid s.joined s2 e s3 hP hs)
        fs _ s1 hstart (fun _ _ => trivial) hrun
      exact key.2

/-! ### The statements at concrete schedules -/

theorem no_task_lost_or_run_twice_witness :
    run (construct 1 1) demoSchedule = some demoState ∧
    List.Perm demoState.pushed
      (demoState.tasks_ ++ executing demoState ++ demoState.completed) ∧
    demoState.completed.length = 1 :=
  ⟨by decide,
    (no_task_lost_or_run_twice 1 1 demoSchedule demoState (by decide)).1,
    (no_task_lost_or_run_twice 1 1 demoSchedule demoState (by decide)).2.2.2.2 1
      (by decide) (by decide) (by decide) (by decide)⟩

theorem pop_order_is_fifo_witness :
    run (construct 1 1) logSchedule = some logState ∧
    logState.pushed = logTasks ∧
    logState.completed = logState.pushed ∧
    logState.completed.map Task.id = [0, 1, 2, 3, 4, 5, 6, 7, 8, 9] :=
  ⟨by decide, by decide,
    ((pop_order_is_fifo 1 1 logSchedule logState (by decide)).2.2 rfl).2.2
      (by decide) (by decide),
    by decide⟩

theorem waitUntilFinished_returns_at_zero_witness :
    (∀ e ∈ demoSchedule, e.isTaskDoneCall = false) ∧
    run (construct 1 1) demoSchedule = some demoState ∧
    waitPred demoState = true ∧
    demoState.number_of_tasks = 0 ∧ demoState.tasks_ = [] :=
  ⟨by decide, by decide, by decide,
    (waitUntilFinished_returns_at_zero 1 1 demoSchedule demoState (by decide) (by decide)
      (by decide)).1,
    (waitUntilFinished_returns_at_zero 1 1 demoSchedule demoState (by decide) (by decide)
      (by decide)).2.1⟩

/-- C3 (counterexample). In a pool without workers a task is enqueued and the public
`taskDone` is called twice from outside the wrapper: a waiter then stands at the wait
predicate holding `task_count_mutex_`, the predicate holds and the waiter returns, while
`number_of_tasks` is -1 and the task is still queued. -/
theorem waitUntilFinished_returns_at_minus_one :
    (run (construct 0 2) negativeCountSchedule).map
        (fun s => (s.threads[1]?, waitPred s, s.number_of_tasks, s.tasks_))
      = some (some (Pc.client (Call.waitUntilFinished WaitPc.check)), true, -1, [demoTask]) ∧
    (run (construct 0 2) negativeCountSchedule).map (fun s => s.task_count_mutex_)
      = some (some 1) ∧
    (run (construct 0 2)
        (negativeCountSchedule ++ [Event.advance 1 0, Event.advance 1 0])).map
        (fun s => (s.threads[1]?, s.number_of_tasks, s.tasks_))
      = some (some (Pc.client Call.idle), -1, [demoTask]) := by
  decide

theorem completion_count_invariant_witness :
    (∀ e ∈ demoSchedule.take 12, e.isTaskDoneCall = false) ∧
    run (construct 1 1) (demoSchedule.take 12) = some runningState ∧
    runningState.number_of_tasks = 1 ∧ inflightCount runningState = 1 ∧
    0 ≤ runningState.number_of_tasks :=
  ⟨by decide, by decide, by decide, by decide,
    (completion_count_invariant 1 1 (demoSchedule.take 12) runningState (by decide)
      (by decide)).2.2.1⟩

theorem shutdown_drains_queue_witness :
    run (construct 1 1) shutdownSchedule = some shutdownState ∧
    (∀ i : Nat, i < 1 → i ∈ shutdownState.joined) ∧
    shutdownState.at_stop = [demoTask] ∧
    List.Subperm shutdownState.at_stop shutdownState.completed :=
  ⟨by decide, by decide, by decide,
    ((shutdown_drains_queue 1 1 shutdownSchedule shutdownState (by decide)).2.2
      (by decide) (by decide)).2.1⟩

theorem wrapper_decrements_after_normal_return_witness :
    runningState.threads[0]? = some (Pc.body demoTask Call.idle) ∧
    runningState.number_of_tasks = 1 ∧
    (run runningState (List.replicate 5 (Event.advance 0 0))).map
        (fun s => (s.number_of_tasks, s.threads[0]?))
      = some (0, some Pc.acquire) :=
  ⟨by decide, by decide, by
    rw [((wrapper_decrements_after_normal_return runningState 0 0 demoTask (by decide)
      (by decide)).1 (by decide) (by decide) (by decide)).2.2]
    decide⟩

/-- C6 (counterexample). A task whose body throws is enqueued and taken by the worker:
after the body has ended `number_of_tasks` is still 1, the worker is not back in its loop,
the process is terminated and no statement can be executed any more, so `taskDone` is
never called. -/
theorem throwing_task_is_never_counted_done :
    (run (construct 1 1) throwSchedule).map
        (fun s => (s.number_of_tasks, s.aborted, s.threads[0]?, s.completed))
      = some (1, true, some (Pc.body throwingTask Call.idle), []) ∧
    (run (construct 1 1) throwSchedule).map (fun s => step s (Event.advance 0 0))
      = some none := by
  decide

theorem taskDone_wakes_one_waiter_witness :
    lastTaskDoneState.threads[0]? = some (Pc.finish demoTask TdPc.decrement) ∧
    lastTaskDoneState.number_of_tasks = 1 ∧ lastTaskDoneState.task_cv_.length = 1 ∧
    ∃ s3 : ThreadPool,
      run lastTaskDoneState (List.replicate 3 (Event.advance 0 0)) = some s3 ∧
      s3.number_of_tasks = 0 ∧ s3.task_cv_ = [] := by
  refine ⟨by decide, by decide, by decide, ?_⟩
  obtain ⟨s3, h1, h2, _, _, h5, _⟩ :=
    taskDone_wakes_one_waiter lastTaskDoneState 0 0 1 demoTask (by decide) (by decide)
      (by decide) (by decide) (by decide)
  exact ⟨s3, h1, h2, h5 rfl⟩

/-- C7 (counterexample). Two threads are blocked in `waitUntilFinished` when the
`taskDone` call of the only task drives `number_of_tasks` to 0: one waiter is woken and
returns, the other is still blocked in `task_cv_.wait` with the count at 0 and cannot
move. -/
theorem second_waiter_stays_blocked :
    (run (construct 1 3) twoWaitersSchedule).map
        (fun s => (s.number_of_tasks, s.task_cv_, s.threads[2]?, s.threads[3]?,
          step s (Event.advance 3 0)))
      = some (0, [3], some (Pc.client Call.idle),
          some (Pc.client (Call.waitUntilFinished WaitPc.blocked)), none) := by
  decide

theorem taskDone_at_zero_leaves_minus_one_witness :
    (construct 0 1).number_of_tasks = 0 ∧
    (run (construct 0 1)
        (Event.call 0 Request.taskDone :: List.replicate 4 (Event.advance 0 0))).map
        (fun s => s.number_of_tasks) = some (-1) :=
  ⟨by decide, by
    rw [(taskDone_at_zero_leaves_minus_one (construct 0 1) 0 0 (by decide) (by decide)
      (by decide) (by decide)).1]
    decide⟩

/-- C8 (counterexample). In a freshly constructed pool (count 0) a call of the public
`taskDone` completes, no error is raised, and `number_of_tasks` is left at -1. -/
theorem stray_taskDone_leaves_minus_one :
    (run (construct 0 1) strayTaskDoneSchedule).map
        (fun s => (s.number_of_tasks, s.aborted, s.threads[0]?))
      = some (-1, false, some (Pc.client Call.idle)) := by
  decide

theorem lock_domains_never_nested_witness :
    run (construct 1 1) (demoSchedule.take 12) = some runningState ∧
    runningState.threads[0]? = some (Pc.body demoTask Call.idle) ∧
    (runningState.queue_mutex_ ≠ some 0 ∧ runningState.task_count_mutex_ ≠ some 0) ∧
    (run runningState (Event.call 0 (Request.enqueue throwingTask)
        :: List.replicate 7 (Event.advance 0 0))).map
        (fun s => (s.tasks_, s.number_of_tasks, s.threads[0]?))
      = some ([throwingTask], 2, some (Pc.body demoTask Call.idle)) := by
  have hq : runningState.queue_mutex_ = none := by decide
  have hc : runningState.task_count_mutex_ = none := by decide
  have key := lock_domains_never_nested 1 1 (demoSchedule.take 12) runningState (by decide)
  refine ⟨by decide, by decide, key.2.1 0 demoTask (by decide), ?_⟩
  rw [key.2.2 0 0 demoTask throwingTask (by decide) (by decide) (by decide)
    (fun j _ => by rw [hq, hc]; simp)]
  decide

theorem destruction_joins_once_and_is_final_witness :
    run (construct 1 1) destroySchedule = some destroyedState ∧
    destroyedState.destroyed = true ∧ destroyedState.joined = [0] ∧
    destructorStep destroyedState 1 (DtorPc.join 0) = none :=
  ⟨by decide, by decide, by decide,
    ((destruction_joins_once_and_is_final 1 1 destroySchedule destroyedState
      (by decide)).2.2 (by decide)).2.1 1 0 (by decide)⟩

/-- C9 (counterexample). The destructor of a pool has completed without error (one worker,
joined; or no worker): the same statements run a second time do not leave the state
unchanged, they have no defined result.  With one worker the second run reaches `join` on
the destroyed `threads_`, without workers it reaches the second destruction of the
members; neither statement has defined behaviour. -/
theorem second_destruction_is_undefined :
    (run (construct 1 1) destroySchedule).map
        (fun s => (s.joined, s.aborted, s.destroyed, s.threads[1]?))
      = some ([0], false, true, some (Pc.client Call.idle)) ∧
    (run (construct 1 1) (destroySchedule ++ destroyAgain.take 5)).map
        (fun s => s.threads[1]?)
      = some (some (Pc.client (Call.destructor (DtorPc.join 0)))) ∧
    run (construct 1 1) (destroySchedule ++ destroyAgain) = none ∧
    (run (construct 0 1) destroyEmptySchedule).map
        (fun s => (s.joined, s.aborted, s.destroyed, s.threads[0]?))
      = some ([], false, true, some (Pc.client Call.idle)) ∧
    (run (construct 0 1) (destroyEmptySchedule ++ destroyEmptyAgain.take 6)).map
        (fun s => s.threads[0]?)
      = some (some (Pc.client (Call.destructor DtorPc.members))) ∧
    run (construct 0 1) (destroyEmptySchedule ++ destroyEmptyAgain) = none := by
  decide

end CppUtils
